import Mathlib

/-!
Verification of the file-discovery and build-orchestration pipeline of the
sucrase CLI (src/cli.ts).

The embedding models:
  * paths as lists of segments (`FPath`); `path.join` becomes list append;
  * the filesystem listing seen by `findFiles` as a finite tree (`FSTree`),
    whose child order is the `readdir` order;
  * directory state and the observable effect trace (`St`, `Ev`):
    directory creations, discovered file pairs, source reads and output
    writes, in execution order;
  * external collaborators (file contents, JSON.parse, glob expansion, the
    `transform` function, write success) as oracle fields of `World`;
  * parsed tsconfig JSON as a `Json` value, with JavaScript property access
    (including the TypeError on reading a property of `undefined`/`null`)
    modelled by `readProp` on `JsVal`.

Machine strings are Lean `String`; the regex replace `\.\w+$` used for the
output extension is modelled character-exactly by `replaceDotExt`.
-/

namespace SucraseCLI

/-- Characters matched by the regex class `\w`. -/
def isWordChar (c : Char) : Bool := c.isAlphanum || c == '_'

/-- Models JavaScript `s.endsWith(suffix)`. -/
def endsWithS (s suffix : String) : Bool := suffix.data.isSuffixOf s.data

/-- Models `s.replace(/\.\w+$/, "." + ext)` from cli.ts (lines 132, 180, 206):
if the string ends in a dot followed by a nonempty run of word characters,
that final `.<run>` is replaced by `.<ext>`; otherwise the string is
unchanged. -/
def replaceDotExt (s ext : String) : String :=
  let rev := s.data.reverse
  let run := rev.takeWhile (fun c => isWordChar c)
  let rest := rev.dropWhile (fun c => isWordChar c)
  if run ≠ [] ∧ rest.head? = some '.' then ⟨rest.tail.reverse ++ '.' :: ext.data⟩
  else s

/-- A filesystem path, as the list of its segments; `path.join` is append. -/
abbrev FPath := List String

/-- Splits a string path into segments at each slash
(the segment form of a path string). -/
def splitPathAux : List Char → List Char → List String
  | [], acc => [⟨acc.reverse⟩]
  | '/' :: rest, acc => (⟨acc.reverse⟩ : String) :: splitPathAux rest []
  | c :: rest, acc => splitPathAux rest (c :: acc)

/-- Path string to segment list, splitting at slashes. -/
def splitPath (s : String) : FPath := splitPathAux s.data []

/-- Splits a string at commas; models `s.split(",")` from cli.ts. -/
def splitCommaAux : List Char → List Char → List String
  | [], acc => [⟨acc.reverse⟩]
  | ',' :: rest, acc => (⟨acc.reverse⟩ : String) :: splitCommaAux rest []
  | c :: rest, acc => splitCommaAux rest (c :: acc)

/-- Comma-split of a string, as used for `--exclude-dirs` and `-t`. -/
def splitComma (s : String) : List String := splitCommaAux s.data []

/-- `dirname` of a path in segment form. -/
def parentDir (p : FPath) : FPath := p.dropLast

/-- The source tree under a directory, as seen through `readdir`/`stat`:
each child is a name together with either file or directory content.
The list order is the `readdir` order. -/
inductive FSTree where
  | file : FSTree
  | dir (children : List (String × FSTree)) : FSTree
deriving Repr

/-- A discovered source/output pair (interface `FileInfo` of cli.ts). -/
structure FileInfo where
  srcPath : FPath
  outPath : FPath
deriving Repr, DecidableEq

/-- Observable events of a run, in execution order. -/
inductive Ev where
  /-- a directory was created on disk -/
  | mkdirEv (p : FPath)
  /-- a `FileInfo` pair was appended to the discovered list -/
  | pairEv (f : FileInfo)
  /-- the source file at `p` was read (attempted) -/
  | readEv (p : FPath)
  /-- the transformed text `content` was written to `p` -/
  | writeEv (p : FPath) (content : String)
deriving Repr, DecidableEq

/-- Mutable world state: the set of existing directories, and the trace of
events so far. -/
structure St where
  dirs : List FPath
  events : List Ev
deriving Repr, DecidableEq

/-- Models `fs.exists` on a directory path. -/
def dirExists (st : St) (p : FPath) : Bool := st.dirs.contains p

/-- Models non-recursive `fs.mkdir`: fails when the path already exists or
when its own parent does not exist yet. -/
def mkdirFS (p : FPath) (st : St) : Except String St :=
  if dirExists st p then .error "EEXIST: file already exists, mkdir"
  else if p ≠ [] && (parentDir p = [] || dirExists st (parentDir p)) then
    .ok { dirs := st.dirs ++ [p], events := st.events ++ [.mkdirEv p] }
  else .error "ENOENT: no such file or directory, mkdir"

/-- The `if (!(await exists(p))) await mkdir(p)` pattern of cli.ts
(lines 114-116, 165-167, 222-224). -/
def ensureDirE (p : FPath) (st : St) : Except (String × St) St :=
  if dirExists st p then .ok st
  else match mkdirFS p st with
    | .ok st1 => .ok st1
    | .error e => .error (e, st)

/-- Minimal JSON value model for the parsed tsconfig document. -/
inductive Json where
  | null : Json
  | bool (b : Bool) : Json
  | str (s : String) : Json
  | num (n : Int) : Json
  | arr (elems : List Json) : Json
  | obj (fields : List (String × Json)) : Json

/-- Result of a JavaScript property read: either `undefined` or a value. -/
inductive JsVal where
  | undefVal : JsVal
  | val (j : Json) : JsVal

/-- JavaScript property access `v[k]`: a TypeError on `undefined`/`null`,
the field (or `undefined`) on an object, `undefined` on other values. -/
def readProp : JsVal → String → Except String JsVal
  | .undefVal, k => .error ("TypeError: Cannot read properties of undefined (reading " ++ k ++ ")")
  | .val .null, k => .error ("TypeError: Cannot read properties of null (reading " ++ k ++ ")")
  | .val (.obj fields), k =>
      .ok (match fields.lookup k with
        | some v => .val v
        | none => .undefVal)
  | .val _, _ => .ok .undefVal

/-- JavaScript truthiness of a property-read result. -/
def truthyJs : JsVal → Bool
  | .undefVal => false
  | .val .null => false
  | .val (.bool b) => b
  | .val (.str s) => !(s == "")
  | .val (.num n) => !(n == 0)
  | .val (.arr _) => true
  | .val (.obj _) => true

/-- Strict comparison `v === true` used for `compilerOptions.esModuleInterop`. -/
def isLiterallyTrue : JsVal → Bool
  | .val (.bool true) => true
  | _ => false

/-- Strict comparison `v === "commonjs"` used for `compilerOptions.module`. -/
def isCommonjsStr : JsVal → Bool
  | .val (.str s) => s == "commonjs"
  | _ => false

/-- The `Options` record forwarded to the external `transform`. -/
structure SucraseOptions where
  transforms : List String
  enableLegacyTypeScriptModuleInterop : Bool
  enableLegacyBabel5ModuleInterop : Bool
  jsxPragma : String
  jsxFragmentPragma : String
  production : Bool
deriving Repr, DecidableEq

/-- The `CLIOptions` record of cli.ts; fields that may be `undefined` at
runtime (absent CLI flags) are `Option`s. -/
structure CLIOptions where
  outDirPath : Option FPath
  srcDirPath : Option FPath
  project : Option FPath
  outExtension : String
  excludeDirs : List String
  quiet : Bool
  sucraseOptions : SucraseOptions
deriving Repr, DecidableEq

/-- The accepted source extensions, from cli.ts lines 110-112. -/
def acceptedExtensions (transforms : List String) : List String :=
  if transforms.contains "typescript" then [".ts", ".tsx"] else [".js", ".jsx"]

/-- Whether a child name is skipped by `findFiles` (cli.ts line 120):
a reserved name or a configured excluded name. -/
def isSkippedName (excludeDirs : List String) (n : String) : Bool :=
  ["node_modules", ".git"].contains n || excludeDirs.contains n

/-- The recursive body of `findFiles` (cli.ts lines 118-138) over the
children of the current source directory.  Entering a child directory first
ensures its mirrored output directory exists (the recursive call of the
original performs this at entry, lines 114-116), then recurses; a file child
with an accepted extension is mapped through the extension swap. -/
def findFilesGo (extensions excludeDirs : List String) (outExtension : String) :
    List (String × FSTree) → FPath → FPath → St → Except (String × St) (List FileInfo × St)
  | [], _, _, st => .ok ([], st)
  | (child, entry) :: rest, srcDirPath, outDirPath, st =>
    if isSkippedName excludeDirs child then
      findFilesGo extensions excludeDirs outExtension rest srcDirPath outDirPath st
    else
      match entry with
      | .dir children =>
        match ensureDirE (outDirPath ++ [child]) st with
        | .error e => .error e
        | .ok st1 =>
          match findFilesGo extensions excludeDirs outExtension children (srcDirPath ++ [child])
              (outDirPath ++ [child]) st1 with
          | .error e => .error e
          | .ok (inner, st2) =>
            match findFilesGo extensions excludeDirs outExtension rest srcDirPath outDirPath st2 with
            | .error e => .error e
            | .ok (tailPairs, st3) => .ok (inner ++ tailPairs, st3)
      | .file =>
        if extensions.any (fun ext => endsWithS child ext) then
          match findFilesGo extensions excludeDirs outExtension rest srcDirPath outDirPath st with
          | .error e => .error e
          | .ok (tailPairs, st1) =>
            .ok ({ srcPath := srcDirPath ++ [child],
                   outPath := outDirPath ++ [replaceDotExt child outExtension] } :: tailPairs, st1)
        else findFilesGo extensions excludeDirs outExtension rest srcDirPath outDirPath st

/-- `findFiles(options)` of cli.ts (lines 106-141): tree discovery in
explicit mode.  `tree` is the `readdir` view of the source directory. -/
def findFiles (tree : List (String × FSTree)) (options : CLIOptions) (st : St) :
    Except (String × St) (List FileInfo × St) :=
  match options.outDirPath, options.srcDirPath with
  | some outDirPath, some srcDirPath =>
    let extensions := acceptedExtensions options.sucraseOptions.transforms
    match ensureDirE outDirPath st with
    | .error e => .error e
    | .ok st1 =>
      findFilesGo extensions options.excludeDirs options.outExtension tree srcDirPath outDirPath st1
  | _, _ => .error ("TypeError: path argument is undefined", st)

/-- External collaborators and ambient process state, as oracles:
`cwd` is `process.cwd()`; `srcTree` is the `readdir` view of the explicit
source directory; `readF` gives file contents; `parseJson` models
`JSON.parse`; `glob` models glob expansion of an absolute pattern;
`transformF` models the external `transform(code, options)` applied with the
given source `filePath`; `writeOk` tells whether a write succeeds. -/
structure World where
  cwd : FPath
  srcTree : List (String × FSTree)
  readF : FPath → Except String String
  parseJson : String → Except String Json
  glob : FPath → List FPath
  transformF : String → SucraseOptions → FPath → Except String String
  writeOk : FPath → Bool

/-- `updateOptionsFromProject(options)` of cli.ts (lines 232-270): reads and
parses `<project>/tsconfig.json`, forces the "typescript" pass in, derives
the output directory from `compilerOptions.outDir`, forces legacy TypeScript
interop unless `esModuleInterop` is literally `true`, and adds the "imports"
pass when `module` is `"commonjs"`.  A failing manifest read exits the
process; property reads on a missing `compilerOptions` raise a TypeError. -/
def updateOptionsFromProject (w : World) (options : CLIOptions) (st : St) :
    Except (String × St) CLIOptions :=
  match options.project with
  | none => .error ("TypeError: path argument is undefined", st)
  | some proj =>
    match w.readF (proj ++ ["tsconfig.json"]) with
    | .error _ => .error ("Could not find project tsconfig.json", st)
    | .ok str =>
      match w.parseJson str with
      | .error e => .error (e, st)
      | .ok json =>
        let sucraseOpts := options.sucraseOptions
        let sucraseOpts :=
          if sucraseOpts.transforms.contains "typescript" then sucraseOpts
          else { sucraseOpts with transforms := sucraseOpts.transforms ++ ["typescript"] }
        match readProp (.val json) "compilerOptions" with
        | .error e => .error (e, st)
        | .ok compilerOpts =>
          match readProp compilerOpts "outDir" with
          | .error e => .error (e, st)
          | .ok outDirVal =>
            let options := { options with sucraseOptions := sucraseOpts }
            match
              (if truthyJs outDirVal then
                match outDirVal with
                | .val (.str s) =>
                    .ok { options with outDirPath := some (w.cwd ++ proj ++ splitPath s) }
                | _ => .error ("TypeError: path argument is not a string", st)
              else .ok options : Except (String × St) CLIOptions)
            with
            | .error e => .error e
            | .ok options =>
              match readProp compilerOpts "esModuleInterop" with
              | .error e => .error (e, st)
              | .ok interopVal =>
                let options :=
                  if isLiterallyTrue interopVal then options
                  else { options with sucraseOptions :=
                    { options.sucraseOptions with enableLegacyTypeScriptModuleInterop := true } }
                match readProp compilerOpts "module" with
                | .error e => .error (e, st)
                | .ok moduleVal =>
                  if isCommonjsStr moduleVal then
                    if options.sucraseOptions.transforms.contains "imports" then .ok options
                    else .ok { options with sucraseOptions :=
                      { options.sucraseOptions with
                        transforms := options.sucraseOptions.transforms ++ ["imports"] } }
                  else .ok options

/-- Extension swap applied to the last segment of a path: the original
applies `replace(/\.\w+$/, ...)` to the joined path string, where the match
can only lie inside the final segment. -/
def replaceLastSegExt (p : FPath) (ext : String) : FPath :=
  match p.reverse with
  | [] => []
  | lastSeg :: revInit => revInit.reverse ++ [replaceDotExt lastSeg ext]

/-- Models `path.relative(base, p)` for the only case arising here: `p` is a
glob match under `base`, so the relative path is the remaining suffix. -/
def relativeSegs (base p : FPath) : FPath :=
  if base.isPrefixOf p then p.drop base.length else p

/-- Ends-with test on the final segment of a path; the original tests
`file.endsWith(ext)` on the joined string, where a `.`-led suffix can only
match inside the final segment. -/
def endsWithPath (p : FPath) (suffix : String) : Bool :=
  match p.getLast? with
  | some n => endsWithS n suffix
  | none => false

/-- The `manifest.files` loop of `runGlob` (cli.ts lines 169-192): skip
declaration files and files without a `.ts`/`.js` suffix; otherwise resolve
the source under the absolute project directory, mirror the output path with
the extension swap, record the containing output directory once on first
reference, and append the pair.  A non-string entry raises a TypeError at
`file.endsWith`. -/
def filesLoop (absProject outDirPath : FPath) (outExtension : String) :
    List Json → List FileInfo → List FPath → St →
    Except (String × St) (List FileInfo × List FPath × St)
  | [], acc, outDirs, st => .ok (acc, outDirs, st)
  | e :: rest, acc, outDirs, st =>
    match e with
    | .str file =>
      if endsWithS file ".d.ts" then filesLoop absProject outDirPath outExtension rest acc outDirs st
      else if !endsWithS file ".ts" && !endsWithS file ".js" then
        filesLoop absProject outDirPath outExtension rest acc outDirs st
      else
        let srcFile := absProject ++ splitPath file
        let outPath := replaceLastSegExt (outDirPath ++ splitPath file) outExtension
        let outDir := parentDir outPath
        let outDirs := if outDirs.contains outDir then outDirs else outDirs ++ [outDir]
        let pair : FileInfo := { srcPath := srcFile, outPath := outPath }
        filesLoop absProject outDirPath outExtension rest (acc ++ [pair]) outDirs
          { st with events := st.events ++ [.pairEv pair] }
    | _ => .error ("TypeError: file.endsWith is not a function", st)

/-- The loop over the matches of one glob pattern (cli.ts lines 196-217). -/
def globLoop (absProject outDirPath : FPath) (outExtension : String) :
    List FPath → List FileInfo → List FPath → St →
    Except (String × St) (List FileInfo × List FPath × St)
  | [], acc, outDirs, st => .ok (acc, outDirs, st)
  | file :: rest, acc, outDirs, st =>
    if !endsWithPath file ".ts" && !endsWithPath file ".js" then
      globLoop absProject outDirPath outExtension rest acc outDirs st
    else if endsWithPath file ".d.ts" then
      globLoop absProject outDirPath outExtension rest acc outDirs st
    else
      let relativeFile := relativeSegs absProject file
      let outPath := replaceLastSegExt (outDirPath ++ relativeFile) outExtension
      let outDir := parentDir outPath
      let outDirs := if outDirs.contains outDir then outDirs else outDirs ++ [outDir]
      let pair : FileInfo := { srcPath := file, outPath := outPath }
      globLoop absProject outDirPath outExtension rest (acc ++ [pair]) outDirs
        { st with events := st.events ++ [.pairEv pair] }

/-- The `manifest.include` loop of `runGlob` (cli.ts lines 193-219): each
pattern is expanded against the absolute project directory and its matches
are processed by `globLoop`.  A non-string pattern raises a TypeError inside
`path.join`. -/
def includeLoop (w : World) (absProject outDirPath : FPath) (outExtension : String) :
    List Json → List FileInfo → List FPath → St →
    Except (String × St) (List FileInfo × List FPath × St)
  | [], acc, outDirs, st => .ok (acc, outDirs, st)
  | p :: rest, acc, outDirs, st =>
    match p with
    | .str pattern =>
      match globLoop absProject outDirPath outExtension
          (w.glob (absProject ++ splitPath pattern)) acc outDirs st with
      | .error e => .error e
      | .ok (acc1, outDirs1, st1) =>
        includeLoop w absProject outDirPath outExtension rest acc1 outDirs1 st1
    | _ => .error ("TypeError: path argument is not a string", st)

/-- The final directory-creation loop of `runGlob` (cli.ts lines 221-225). -/
def mkdirLoop : List FPath → St → Except (String × St) St
  | [], st => .ok st
  | d :: rest, st =>
    match ensureDirE d st with
    | .error e => .error e
    | .ok st1 => mkdirLoop rest st1

/-- The truthiness-guarded iteration over `manifest.files`
(cli.ts line 169): skipped when falsy, a TypeError unless an array. -/
def filesBranch (ap od : FPath) (oe : String) (filesVal : JsVal) (st : St) :
    Except (String × St) (List FileInfo × List FPath × St) :=
  if truthyJs filesVal then
    match filesVal with
    | .val (.arr elems) => filesLoop ap od oe elems [] [] st
    | _ => .error ("TypeError: files is not iterable", st)
  else .ok ([], [], st)

/-- The truthiness-guarded iteration over `manifest.include`
(cli.ts line 193): skipped when falsy, a TypeError unless an array. -/
def includeBranch (w : World) (ap od : FPath) (oe : String) (includeVal : JsVal)
    (acc : List FileInfo) (outDirs : List FPath) (st : St) :
    Except (String × St) (List FileInfo × List FPath × St) :=
  if truthyJs includeVal then
    match includeVal with
    | .val (.arr pats) => includeLoop w ap od oe pats acc outDirs st
    | _ => .error ("TypeError: include is not iterable", st)
  else .ok (acc, outDirs, st)

/-- `runGlob(options)` of cli.ts (lines 143-230): project-mode file
resolution.  Re-reads and re-parses the manifest, ensures the output root
exists, expands `files` then `include` into pairs while recording each
needed output directory on first reference, then creates the recorded
directories. -/
def runGlob (w : World) (options : CLIOptions) (st : St) :
    Except (String × St) (List FileInfo × St) :=
  match options.project with
  | none => .error ("TypeError: path argument is undefined", st)
  | some proj =>
    match w.readF (proj ++ ["tsconfig.json"]) with
    | .error _ => .error ("Could not find project tsconfig.json", st)
    | .ok str =>
      match w.parseJson str with
      | .error e => .error (e, st)
      | .ok json =>
        match readProp (.val json) "files" with
        | .error e => .error (e, st)
        | .ok filesVal =>
          match readProp (.val json) "include" with
          | .error e => .error (e, st)
          | .ok includeVal =>
            let absProject := w.cwd ++ proj
            match options.outDirPath with
            | none => .error ("TypeError: path argument is undefined", st)
            | some outDirPath =>
              match ensureDirE outDirPath st with
              | .error e => .error e
              | .ok st1 =>
                match filesBranch absProject outDirPath options.outExtension filesVal st1 with
                | .error e => .error e
                | .ok (found1, outDirs1, st2) =>
                  match includeBranch w absProject outDirPath options.outExtension includeVal
                      found1 outDirs1 st2 with
                  | .error e => .error e
                  | .ok (foundFiles, outDirs, st3) =>
                    match mkdirLoop outDirs st3 with
                    | .error e => .error e
                    | .ok st4 => .ok (foundFiles, st4)

/-- The pure outcome of building one pair: read the source, transform it,
write the output; the first failure is the result. -/
def buildFileResult (w : World) (o : SucraseOptions) (f : FileInfo) : Except String String :=
  match w.readF f.srcPath with
  | .error e => .error e
  | .ok code =>
    match w.transformF code o f.srcPath with
    | .error e => .error e
    | .ok out => if w.writeOk f.outPath then .ok out else .error "EACCES: permission denied, write"

/-- The events `buildFile` emits for one pair: the read attempt always, the
write only when read, transform and write all succeed. -/
def fileEvents (w : World) (o : SucraseOptions) (f : FileInfo) : List Ev :=
  match buildFileResult w o f with
  | .ok out => [.readEv f.srcPath, .writeEv f.outPath out]
  | .error _ => [.readEv f.srcPath]

/-- `buildFile(srcPath, outPath, options)` of cli.ts (lines 289-296): read
the source text, transform it with the options augmented with the source
path, write the result. -/
def buildFile (w : World) (o : SucraseOptions) (f : FileInfo) (st : St) :
    Except (String × St) St :=
  let st1 : St := { st with events := st.events ++ [.readEv f.srcPath] }
  match w.readF f.srcPath with
  | .error e => .error (e, st1)
  | .ok code =>
    match w.transformF code o f.srcPath with
    | .error e => .error (e, st1)
    | .ok out =>
      if w.writeOk f.outPath then
        .ok { st1 with events := st1.events ++ [.writeEv f.outPath out] }
      else .error ("EACCES: permission denied, write", st1)

/-- The build loop of `buildDirectory` (cli.ts lines 284-287): strictly
sequential, aborting at the first failing pair. -/
def buildFiles (w : World) (o : SucraseOptions) : List FileInfo → St → Except (String × St) St
  | [], st => .ok st
  | f :: rest, st =>
    match buildFile w o f st with
    | .error e => .error e
    | .ok st1 => buildFiles w o rest st1

/-- `buildDirectory(options)` of cli.ts (lines 272-287): mode selection and
the sequential build loop. -/
def buildDirectory (w : World) (options : CLIOptions) (st : St) : Except (String × St) St :=
  if options.outDirPath.isSome && options.srcDirPath.isSome then
    match findFiles w.srcTree options st with
    | .error e => .error e
    | .ok (files, st1) => buildFiles w options.sucraseOptions files st1
  else if options.project.isSome then
    match updateOptionsFromProject w options st with
    | .error e => .error e
    | .ok options1 =>
      match runGlob w options1 st with
      | .error e => .error e
      | .ok (files, st1) => buildFiles w options1.sucraseOptions files st1
  else .error ("Project or Source directory required.", st)

/-- The already-parsed commander option values consumed by `run()`
(cli.ts lines 22-99); string-valued flags that may be absent are `Option`s,
positional arguments are `args`. -/
structure Commander where
  outDir : Option FPath
  project : Option FPath
  outExtension : String
  excludeDirs : Option String
  transforms : Option String
  quiet : Bool
  enableLegacyTypescriptModuleInterop : Bool
  enableLegacyBabel5ModuleInterop : Bool
  jsxPragma : Option String
  jsxFragmentPragma : Option String
  production : Bool
  args : List FPath
deriving Repr, DecidableEq

/-- JavaScript truthiness of an optional string flag. -/
def optStrTruthy : Option String → Bool
  | some s => !(s == "")
  | none => false

/-- The `a || b` fallback on string flags (`jsxPragma`, `jsxFragmentPragma`). -/
def jsOrElse (o : Option String) (dflt : String) : String :=
  match o with
  | some s => if s == "" then dflt else s
  | none => dflt

/-- The `CLIOptions` record built by `run()` (cli.ts lines 78-93). -/
def mkOptions (c : Commander) : CLIOptions :=
  { outDirPath := c.outDir
    srcDirPath := c.args.head?
    project := c.project
    outExtension := c.outExtension
    excludeDirs := match c.excludeDirs with
      | some s => if s == "" then [] else splitComma s
      | none => []
    quiet := c.quiet
    sucraseOptions :=
      { transforms := match c.transforms with
          | some s => if s == "" then [] else splitComma s
          | none => []
        enableLegacyTypeScriptModuleInterop := c.enableLegacyTypescriptModuleInterop
        enableLegacyBabel5ModuleInterop := c.enableLegacyBabel5ModuleInterop
        jsxPragma := jsOrElse c.jsxPragma "React.createElement"
        jsxFragmentPragma := jsOrElse c.jsxFragmentPragma "React.Fragment"
        production := c.production } }

/-- The option-validation part of `run()` (cli.ts lines 48-93): project mode
rejects an out directory, transforms, a source argument and the legacy
TypeScript interop flag; explicit mode requires an out directory, transforms
and a source argument. -/
def runValidate (c : Commander) : Except String CLIOptions :=
  if c.project.isSome then
    if c.outDir.isSome || optStrTruthy c.transforms || c.args.head?.isSome ||
        c.enableLegacyTypescriptModuleInterop then
      .error ("If TypeScript project is specified, out directory, transforms, source " ++
        "directory, and --enable-legacy-typescript-module-interop may not be specified.")
    else .ok (mkOptions c)
  else
    if !c.outDir.isSome then .error "Out directory is required"
    else if !optStrTruthy c.transforms then .error "Transforms option is required."
    else if !c.args.head?.isSome then .error "Source directory is required."
    else .ok (mkOptions c)

/-! ### Helper lemmas about the string and path primitives -/

theorem takeWhile_all_append (p : Char → Bool) (l₁ : List Char) (x : Char) (l₂ : List Char)
    (h1 : ∀ c ∈ l₁, p c = true) (h2 : p x = false) :
    (l₁ ++ x :: l₂).takeWhile p = l₁ ∧ (l₁ ++ x :: l₂).dropWhile p = x :: l₂ := by
  induction l₁ with
  | nil => simp [List.takeWhile_cons, List.dropWhile_cons, h2]
  | cons a l ih =>
    have ha : p a = true := h1 a (by simp)
    have hrec := ih (fun c hc => h1 c (by simp [hc]))
    simp [List.takeWhile_cons, List.dropWhile_cons, ha, hrec.1, hrec.2]

/-- Behaviour of the regex replace when the name ends in `.` followed by a
nonempty run of word characters: the stem is kept intact and the run is
replaced by the new extension. -/
theorem replaceDotExt_spec (name oe : String) (stem w : List Char)
    (hne : w ≠ []) (hw : ∀ c ∈ w, isWordChar c = true)
    (hdata : name.data = stem ++ '.' :: w) :
    (replaceDotExt name oe).data = stem ++ '.' :: oe.data := by
  have hrev : name.data.reverse = w.reverse ++ '.' :: stem.reverse := by
    rw [hdata]; simp
  have htd := takeWhile_all_append (fun c => isWordChar c) w.reverse '.' stem.reverse
    (fun c hc => hw c (List.mem_reverse.mp hc)) (by decide)
  unfold replaceDotExt
  simp only [hrev, htd.1, htd.2]
  rw [if_pos]
  · simp
  · exact ⟨by simpa using hne, rfl⟩

/-- Every accepted source extension is a dot followed by a nonempty run of
word characters. -/
theorem acceptedExtensions_wf (t : List String) (ext : String)
    (h : ext ∈ acceptedExtensions t) :
    ∃ w, ext.data = '.' :: w ∧ w ≠ [] ∧ ∀ c ∈ w, isWordChar c = true := by
  unfold acceptedExtensions at h
  split at h <;> simp only [List.mem_cons, List.not_mem_nil, or_false] at h <;>
    rcases h with h | h <;> subst h
  · exact ⟨['t', 's'], by decide, by decide, by decide⟩
  · exact ⟨['t', 's', 'x'], by decide, by decide, by decide⟩
  · exact ⟨['j', 's'], by decide, by decide, by decide⟩
  · exact ⟨['j', 's', 'x'], by decide, by decide, by decide⟩

/-- Decomposition of a name that ends in a well-formed extension: the stem
before the extension is preserved by the output extension swap. -/
theorem ext_decomp (name ext oe : String)
    (hext : ∃ w, ext.data = '.' :: w ∧ w ≠ [] ∧ ∀ c ∈ w, isWordChar c = true)
    (h : endsWithS name ext = true) :
    ∃ stem, name.data = stem ++ ext.data ∧
      (replaceDotExt name oe).data = stem ++ '.' :: oe.data := by
  obtain ⟨w, hw1, hw2, hw3⟩ := hext
  have hsuf : ext.data <:+ name.data := List.isSuffixOf_iff_suffix.mp h
  obtain ⟨stem, hstem⟩ := hsuf
  refine ⟨stem, hstem.symm, ?_⟩
  exact replaceDotExt_spec name oe stem w hw2 hw3 (by rw [← hstem, hw1])

/-- Exact behaviour of the exists-then-mkdir pattern on success. -/
theorem ensureDirE_ok (p : FPath) (st st1 : St) (h : ensureDirE p st = .ok st1) :
    (dirExists st p = true ∧ st1 = st) ∨
    (dirExists st p = false ∧
      st1 = { dirs := st.dirs ++ [p], events := st.events ++ [.mkdirEv p] }) := by
  unfold ensureDirE at h
  split at h
  · cases h
    exact Or.inl ⟨by assumption, rfl⟩
  · right
    have hne : dirExists st p = false := by simp_all
    refine ⟨hne, ?_⟩
    cases hm : mkdirFS p st with
    | ok st2 =>
      simp only [hm] at h
      cases h
      unfold mkdirFS at hm
      rw [if_neg (by simp [hne])] at hm
      split at hm
      · cases hm; rfl
      · cases hm
    | error e =>
      simp only [hm] at h
      cases h

/-! ### Structure of tree discovery -/

/-- Unfolding equation of `findFilesGo` on the empty listing. -/
theorem findFilesGo_nil (extensions excludeDirs : List String) (oe : String)
    (srcD outD : FPath) (st : St) :
    findFilesGo extensions excludeDirs oe [] srcD outD st = .ok ([], st) := by
  rw [findFilesGo.eq_def]

/-- Unfolding equation of `findFilesGo` on a non-empty listing. -/
theorem findFilesGo_cons (extensions excludeDirs : List String) (oe child : String)
    (entry : FSTree) (rest : List (String × FSTree)) (srcD outD : FPath) (st : St) :
    findFilesGo extensions excludeDirs oe ((child, entry) :: rest) srcD outD st =
      (if isSkippedName excludeDirs child then
        findFilesGo extensions excludeDirs oe rest srcD outD st
      else
        match entry with
        | .dir children =>
          match ensureDirE (outD ++ [child]) st with
          | .error e => .error e
          | .ok st1 =>
            match findFilesGo extensions excludeDirs oe children (srcD ++ [child])
                (outD ++ [child]) st1 with
            | .error e => .error e
            | .ok (inner, st2) =>
              match findFilesGo extensions excludeDirs oe rest srcD outD st2 with
              | .error e => .error e
              | .ok (tailPairs, st3) => .ok (inner ++ tailPairs, st3)
        | .file =>
          if extensions.any (fun ext => endsWithS child ext) then
            match findFilesGo extensions excludeDirs oe rest srcD outD st with
            | .error e => .error e
            | .ok (tailPairs, st1) =>
              .ok ({ srcPath := srcD ++ [child],
                     outPath := outD ++ [replaceDotExt child oe] } :: tailPairs, st1)
          else findFilesGo extensions excludeDirs oe rest srcD outD st) := by
  rw [findFilesGo.eq_def]

/-- Soundness of the recursive discovery walk: every produced pair sits at a
mirrored location whose relative segments are never skipped names, the file
name carries an accepted extension with the output name given by the
extension swap, and every emitted event is the creation of a mirrored output
subdirectory whose relative segments are never skipped names. -/
theorem findFilesGo_sound (extensions excludeDirs : List String) (oe : String)
    (tree : List (String × FSTree)) (srcD outD : FPath) (st : St) :
    ∀ (pairs : List FileInfo) (st' : St),
      findFilesGo extensions excludeDirs oe tree srcD outD st = .ok (pairs, st') →
      (∀ pair ∈ pairs, ∃ rel name,
        pair.srcPath = srcD ++ (rel ++ [name]) ∧
        pair.outPath = outD ++ (rel ++ [replaceDotExt name oe]) ∧
        (extensions.any fun ext => endsWithS name ext) = true ∧
        ∀ seg ∈ rel ++ [name], isSkippedName excludeDirs seg = false) ∧
      (∃ newEvs, st'.events = st.events ++ newEvs ∧
        ∀ e ∈ newEvs, ∃ rel, rel ≠ [] ∧ e = Ev.mkdirEv (outD ++ rel) ∧
          ∀ seg ∈ rel, isSkippedName excludeDirs seg = false) := by
  induction tree, srcD, outD, st using findFilesGo.induct extensions excludeDirs oe with
  | case1 srcD outD st =>
    intro pairs st' h
    rw [findFilesGo_nil] at h
    cases h
    exact ⟨by simp, [], by simp, by simp⟩
  | case2 child entry rest srcD outD st hskip ih =>
    intro pairs st' h
    rw [findFilesGo_cons, if_pos hskip] at h
    exact ih pairs st' h
  | case3 child rest srcD outD st hskip children e herr =>
    intro pairs st' h
    rw [findFilesGo_cons, if_neg hskip] at h
    simp only [herr] at h
    cases h
  | case4 child rest srcD outD st hskip children st1 hens e herr ih =>
    intro pairs st' h
    rw [findFilesGo_cons, if_neg hskip] at h
    simp only [hens, herr] at h
    cases h
  | case5 child rest srcD outD st hskip children st1 hens inner st2 hinner e herr ih1 ih2 =>
    intro pairs st' h
    rw [findFilesGo_cons, if_neg hskip] at h
    simp only [hens, hinner, herr] at h
    cases h
  | case6 child rest srcD outD st hskip children st1 hens inner st2 hinner tailPairs st3 htail
      ih1 ih2 =>
    intro pairs st' h
    rw [findFilesGo_cons, if_neg hskip] at h
    simp only [hens, hinner, htail] at h
    cases h
    have hchild : isSkippedName excludeDirs child = false := by
      simpa using hskip
    obtain ⟨hip, hie⟩ := ih1 inner st2 hinner
    obtain ⟨htp, hte⟩ := ih2 tailPairs st3 htail
    constructor
    · intro pair hpair
      rcases List.mem_append.mp hpair with hmem | hmem
      · obtain ⟨rel, name, h1, h2, h3, h4⟩ := hip pair hmem
        refine ⟨child :: rel, name, ?_, ?_, h3, ?_⟩
        · rw [h1]; simp
        · rw [h2]; simp
        · intro seg hseg
          rcases List.mem_cons.mp hseg with hseg | hseg
          · subst hseg; exact hchild
          · exact h4 seg hseg
      · exact htp pair hmem
    · obtain ⟨evs0, hevs0⟩ : ∃ evs0, st1.events = st.events ++ evs0 ∧
          ∀ e ∈ evs0, ∃ rel, rel ≠ [] ∧ e = Ev.mkdirEv (outD ++ rel) ∧
            ∀ seg ∈ rel, isSkippedName excludeDirs seg = false := by
        rcases ensureDirE_ok _ _ _ hens with ⟨_, rfl⟩ | ⟨_, rfl⟩
        · exact ⟨[], by simp, by simp⟩
        · refine ⟨[Ev.mkdirEv (outD ++ [child])], by simp, ?_⟩
          intro e he
          rcases List.mem_singleton.mp he with rfl
          exact ⟨[child], by simp, rfl, by simpa using hchild⟩
      obtain ⟨evs1, hevs1a, hevs1b⟩ := hie
      obtain ⟨evs2, hevs2a, hevs2b⟩ := hte
      refine ⟨evs0 ++ evs1 ++ evs2, ?_, ?_⟩
      · rw [hevs2a, hevs1a, hevs0.1]; simp
      · intro e he
        rcases List.mem_append.mp he with he | he
        · rcases List.mem_append.mp he with he | he
          · exact hevs0.2 e he
          · obtain ⟨rel, hrel1, hrel2, hrel3⟩ := hevs1b e he
            refine ⟨child :: rel, by simp, ?_, ?_⟩
            · rw [hrel2]; simp
            · intro seg hseg
              rcases List.mem_cons.mp hseg with hseg | hseg
              · subst hseg; exact hchild
              · exact hrel3 seg hseg
        · exact hevs2b e he
  | case7 child rest srcD outD st hskip hext e herr ih =>
    intro pairs st' h
    rw [findFilesGo_cons, if_neg hskip] at h
    simp only [hext, if_true, herr] at h
    cases h
  | case8 child rest srcD outD st hskip hext tailPairs st1 htail ih =>
    intro pairs st' h
    rw [findFilesGo_cons, if_neg hskip] at h
    simp only [hext, if_true, htail] at h
    cases h
    have hchild : isSkippedName excludeDirs child = false := by
      simpa using hskip
    obtain ⟨htp, hte⟩ := ih tailPairs st1 htail
    constructor
    · intro pair hpair
      rcases List.mem_cons.mp hpair with rfl | hmem
      · refine ⟨[], child, by simp, by simp, hext, ?_⟩
        intro seg hseg
        rcases List.mem_singleton.mp hseg with rfl
        exact hchild
      · exact htp pair hmem
    · exact hte
  | case9 child rest srcD outD st hskip hext ih =>
    intro pairs st' h
    rw [findFilesGo_cons, if_neg hskip] at h
    rw [if_neg (by simpa using hext)] at h
    exact ih pairs st' h

/-- **C2**: in explicit mode, every discovered FilePair has a source path
that is a descendant of the source directory, an output path that is the
structurally identical descendant of the output directory, and an output
file name equal to the source name with only its final extension segment
replaced by the configured output extension (all earlier dots of the name
kept intact in the stem). -/
theorem c2_explicit_pairs_mirror (tree : List (String × FSTree)) (options : CLIOptions)
    (st : St) (o s : FPath) (pairs : List FileInfo) (st' : St)
    (ho : options.outDirPath = some o) (hs : options.srcDirPath = some s)
    (h : findFiles tree options st = .ok (pairs, st')) :
    ∀ pair ∈ pairs, ∃ rel name stem ext,
      ext ∈ acceptedExtensions options.sucraseOptions.transforms ∧
      endsWithS name ext = true ∧
      pair.srcPath = s ++ (rel ++ [name]) ∧
      pair.outPath = o ++ (rel ++ [replaceDotExt name options.outExtension]) ∧
      name.data = stem ++ ext.data ∧
      (replaceDotExt name options.outExtension).data =
        stem ++ '.' :: options.outExtension.data := by
  unfold findFiles at h
  rw [ho, hs] at h
  cases hens : ensureDirE o st with
  | error e =>
    simp only [hens] at h
    cases h
  | ok st1 =>
    simp only [hens] at h
    have hsound := findFilesGo_sound _ _ _ tree s o st1 pairs st' h
    intro pair hpair
    obtain ⟨rel, name, h1, h2, h3, _⟩ := hsound.1 pair hpair
    obtain ⟨ext, hextmem, hextends⟩ := List.any_eq_true.mp h3
    obtain ⟨stem, hstem1, hstem2⟩ := ext_decomp name ext options.outExtension
      (acceptedExtensions_wf _ ext hextmem) hextends
    exact ⟨rel, name, stem, ext, hextmem, hextends, h1, h2, hstem1, hstem2⟩

/-- Concrete source tree used to witness the discovery theorems. -/
def exTree : List (String × FSTree) :=
  [("a.b.ts", .file), ("node_modules", .dir [("dep.ts", .file)]),
   ("skipme", .dir [("d.ts", .file)]), ("sub", .dir [("c.tsx", .file)])]

/-- Concrete explicit-mode options used to witness the discovery theorems. -/
def exOptions : CLIOptions :=
  { outDirPath := some ["out"]
    srcDirPath := some ["src"]
    project := none
    outExtension := "js"
    excludeDirs := ["skipme"]
    quiet := false
    sucraseOptions :=
      { transforms := ["typescript"]
        enableLegacyTypeScriptModuleInterop := false
        enableLegacyBabel5ModuleInterop := false
        jsxPragma := "React.createElement"
        jsxFragmentPragma := "React.Fragment"
        production := false } }

/-- Initial state used to witness the discovery theorems. -/
def exSt : St := { dirs := [["src"], ["out"]], events := [] }

/-- The pairs discovered on the witness inputs. -/
def exPairs : List FileInfo :=
  [{ srcPath := ["src", "a.b.ts"], outPath := ["out", "a.b.js"] },
   { srcPath := ["src", "sub", "c.tsx"], outPath := ["out", "sub", "c.js"] }]

/-- The final state on the witness inputs. -/
def exStFinal : St :=
  { dirs := [["src"], ["out"], ["out", "sub"]], events := [Ev.mkdirEv ["out", "sub"]] }

theorem c2_explicit_pairs_mirror_witness :
    ∃ rel name stem ext,
      ext ∈ acceptedExtensions exOptions.sucraseOptions.transforms ∧
      endsWithS name ext = true ∧
      (FileInfo.mk ["src", "a.b.ts"] ["out", "a.b.js"]).srcPath = ["src"] ++ (rel ++ [name]) ∧
      (FileInfo.mk ["src", "a.b.ts"] ["out", "a.b.js"]).outPath =
        ["out"] ++ (rel ++ [replaceDotExt name exOptions.outExtension]) ∧
      name.data = stem ++ ext.data ∧
      (replaceDotExt name exOptions.outExtension).data =
        stem ++ '.' :: exOptions.outExtension.data :=
  c2_explicit_pairs_mirror exTree exOptions exSt ["out"] ["src"] exPairs exStFinal rfl rfl
    (by simp +decide [findFiles, findFilesGo, exTree, exOptions, exSt, exPairs, exStFinal,
      ensureDirE, mkdirFS, dirExists, parentDir, endsWithS, replaceDotExt, isWordChar,
      isSkippedName, acceptedExtensions])
    (FileInfo.mk ["src", "a.b.ts"] ["out", "a.b.js"]) (by decide)

/-- **C7**: in explicit-mode discovery, children whose name is reserved
(`node_modules`, `.git`) or in the configured excluded set are never
descended into at any depth: no discovered pair has a skipped name anywhere
in its path below the source root, and no created output directory has a
skipped name anywhere in its path below the output root. -/
theorem c7_excluded_never_traversed (tree : List (String × FSTree)) (options : CLIOptions)
    (st : St) (o s : FPath) (pairs : List FileInfo) (st' : St)
    (ho : options.outDirPath = some o) (hs : options.srcDirPath = some s)
    (h : findFiles tree options st = .ok (pairs, st')) :
    (∀ pair ∈ pairs, ∃ rel, pair.srcPath = s ++ rel ∧ rel ≠ [] ∧
      ∀ seg ∈ rel, isSkippedName options.excludeDirs seg = false) ∧
    (∃ newEvs, st'.events = st.events ++ newEvs ∧
      ∀ e ∈ newEvs, ∃ rel, e = Ev.mkdirEv (o ++ rel) ∧
        ∀ seg ∈ rel, isSkippedName options.excludeDirs seg = false) := by
  unfold findFiles at h
  rw [ho, hs] at h
  cases hens : ensureDirE o st with
  | error e =>
    simp only [hens] at h
    cases h
  | ok st1 =>
    simp only [hens] at h
    have hsound := findFilesGo_sound _ _ _ tree s o st1 pairs st' h
    constructor
    · intro pair hpair
      obtain ⟨rel, name, h1, _, _, h4⟩ := hsound.1 pair hpair
      exact ⟨rel ++ [name], h1, by simp, h4⟩
    · obtain ⟨evs1, hevs1a, hevs1b⟩ := hsound.2
      rcases ensureDirE_ok _ _ _ hens with ⟨_, rfl⟩ | ⟨_, hst1⟩
      · refine ⟨evs1, hevs1a, ?_⟩
        intro e he
        obtain ⟨rel, _, hrel2, hrel3⟩ := hevs1b e he
        exact ⟨rel, hrel2, hrel3⟩
      · refine ⟨Ev.mkdirEv o :: evs1, ?_, ?_⟩
        · rw [hevs1a, hst1]; simp
        · intro e he
          rcases List.mem_cons.mp he with rfl | he
          · exact ⟨[], by simp, by simp⟩
          · obtain ⟨rel, _, hrel2, hrel3⟩ := hevs1b e he
            exact ⟨rel, hrel2, hrel3⟩

theorem c7_excluded_never_traversed_witness :
    (∀ pair ∈ exPairs, ∃ rel, pair.srcPath = ["src"] ++ rel ∧ rel ≠ [] ∧
      ∀ seg ∈ rel, isSkippedName exOptions.excludeDirs seg = false) ∧
    (∃ newEvs, exStFinal.events = exSt.events ++ newEvs ∧
      ∀ e ∈ newEvs, ∃ rel, e = Ev.mkdirEv (["out"] ++ rel) ∧
        ∀ seg ∈ rel, isSkippedName exOptions.excludeDirs seg = false) :=
  c7_excluded_never_traversed exTree exOptions exSt ["out"] ["src"] exPairs exStFinal rfl rfl
    (by simp +decide [findFiles, findFilesGo, exTree, exOptions, exSt, exPairs, exStFinal,
      ensureDirE, mkdirFS, dirExists, parentDir, endsWithS, replaceDotExt, isWordChar,
      isSkippedName, acceptedExtensions])

/-! ### The sequential build loop -/

/-- `buildFile` appends exactly its events and succeeds exactly when the pure
per-pair outcome does. -/
theorem buildFile_spec (w : World) (o : SucraseOptions) (f : FileInfo) (st : St) :
    buildFile w o f st =
      match buildFileResult w o f with
      | .ok _ => .ok { st with events := st.events ++ fileEvents w o f }
      | .error e => .error (e, { st with events := st.events ++ fileEvents w o f }) := by
  cases hr : w.readF f.srcPath with
  | error e => simp [buildFile, buildFileResult, fileEvents, hr]
  | ok code =>
    cases ht : w.transformF code o f.srcPath with
    | error e => simp [buildFile, buildFileResult, fileEvents, hr, ht]
    | ok out =>
      by_cases hw : w.writeOk f.outPath <;>
        simp [buildFile, buildFileResult, fileEvents, hr, ht, hw]

/-- Events of a successfully built pair: the read then the write. -/
theorem fileEvents_ok (w : World) (o : SucraseOptions) (f : FileInfo) (out : String)
    (h : buildFileResult w o f = .ok out) :
    fileEvents w o f = [Ev.readEv f.srcPath, Ev.writeEv f.outPath out] := by
  unfold fileEvents
  rw [h]

/-- Events of a failing pair: only the attempted read. -/
theorem fileEvents_error (w : World) (o : SucraseOptions) (f : FileInfo) (e : String)
    (h : buildFileResult w o f = .error e) :
    fileEvents w o f = [Ev.readEv f.srcPath] := by
  unfold fileEvents
  rw [h]

/-- A successful loop run builds every pair and appends exactly the per-pair
events, in list order. -/
theorem buildFiles_ok_spec (w : World) (o : SucraseOptions) :
    ∀ (files : List FileInfo) (st st2 : St),
      buildFiles w o files st = .ok st2 →
      (∀ f ∈ files, ∃ out, buildFileResult w o f = .ok out) ∧
      st2 = { st with events := st.events ++ (files.map (fileEvents w o)).flatten } := by
  intro files
  induction files with
  | nil =>
    intro st st2 h
    rw [buildFiles] at h
    cases h
    exact ⟨by simp, by simp⟩
  | cons f rest ih =>
    intro st st2 h
    rw [buildFiles, buildFile_spec] at h
    cases hr : buildFileResult w o f with
    | error e =>
      rw [hr] at h
      cases h
    | ok out =>
      rw [hr] at h
      obtain ⟨h1, h2⟩ := ih _ _ h
      refine ⟨?_, ?_⟩
      · intro g hg
        rcases List.mem_cons.mp hg with rfl | hg
        · exact ⟨out, hr⟩
        · exact h1 g hg
      · rw [h2]; simp

/-- A failing loop run decomposes the pair list into fully built earlier
pairs, the failing pair, and untouched later pairs; the trace extends by
exactly the earlier pairs events and the failing read attempt. -/
theorem buildFiles_error_spec (w : World) (o : SucraseOptions) :
    ∀ (files : List FileInfo) (st : St) (e : String) (st' : St),
      buildFiles w o files st = .error (e, st') →
      ∃ pre fail post,
        files = pre ++ fail :: post ∧
        (∀ f ∈ pre, ∃ out, buildFileResult w o f = .ok out) ∧
        buildFileResult w o fail = .error e ∧
        st' = { st with events := st.events ++ (pre.map (fileEvents w o)).flatten ++
          [Ev.readEv fail.srcPath] } := by
  intro files
  induction files with
  | nil =>
    intro st e st' h
    rw [buildFiles] at h
    cases h
  | cons f rest ih =>
    intro st e st' h
    rw [buildFiles, buildFile_spec] at h
    cases hr : buildFileResult w o f with
    | error e1 =>
      rw [hr] at h
      cases h
      refine ⟨[], f, rest, by simp, by simp, hr, ?_⟩
      rw [fileEvents_error w o f _ hr]
      simp
    | ok out =>
      rw [hr] at h
      obtain ⟨pre, fail, post, hsplit, hpre, hfail, hst⟩ := ih _ _ _ h
      refine ⟨f :: pre, fail, post, by simp [hsplit], ?_, hfail, ?_⟩
      · intro g hg
        rcases List.mem_cons.mp hg with rfl | hg
        · exact ⟨out, hr⟩
        · exact hpre g hg
      · rw [hst]; simp

/-- **C1**: the orchestrator builds the discovered pairs strictly in
discovery order; a success means every pair was read, transformed and
written in order, and a failure splits the list into earlier pairs that were
fully read, transformed and written (their writes are in the trace and stay
there), the failing pair whose read was attempted, and later pairs that
contribute no read or write event at all. -/
theorem c1_sequential_abort (w : World) (o : SucraseOptions) (files : List FileInfo) (st : St) :
    (∀ st2, buildFiles w o files st = .ok st2 →
      (∀ f ∈ files, ∃ out, buildFileResult w o f = .ok out ∧
        fileEvents w o f = [Ev.readEv f.srcPath, Ev.writeEv f.outPath out]) ∧
      st2.events = st.events ++ (files.map (fileEvents w o)).flatten) ∧
    (∀ e st', buildFiles w o files st = .error (e, st') →
      ∃ pre fail post,
        files = pre ++ fail :: post ∧
        (∀ f ∈ pre, ∃ out, buildFileResult w o f = .ok out ∧
          fileEvents w o f = [Ev.readEv f.srcPath, Ev.writeEv f.outPath out]) ∧
        buildFileResult w o fail = .error e ∧
        st'.events = st.events ++ (pre.map (fileEvents w o)).flatten ++
          [Ev.readEv fail.srcPath]) := by
  constructor
  · intro st2 h
    obtain ⟨h1, h2⟩ := buildFiles_ok_spec w o files st st2 h
    refine ⟨?_, by rw [h2]⟩
    intro f hf
    obtain ⟨out, hout⟩ := h1 f hf
    exact ⟨out, hout, fileEvents_ok w o f out hout⟩
  · intro e st' h
    obtain ⟨pre, fail, post, hsplit, hpre, hfail, hst⟩ := buildFiles_error_spec w o files st e st' h
    refine ⟨pre, fail, post, hsplit, ?_, hfail, by rw [hst]⟩
    intro f hf
    obtain ⟨out, hout⟩ := hpre f hf
    exact ⟨out, hout, fileEvents_ok w o f out hout⟩

/-- Concrete world used to witness the build-loop theorem: the second pair
fails inside the transform. -/
def exBuildW : World :=
  { cwd := []
    srcTree := []
    readF := fun p => if p = ["src", "bad.ts"] then .ok "syntax error here" else .ok "ok code"
    parseJson := fun _ => .error "SyntaxError"
    glob := fun _ => []
    transformF := fun code _ _ =>
      if code = "syntax error here" then .error "SyntaxError: Unexpected token" else .ok "built"
    writeOk := fun _ => true }

/-- The pair list used to witness the build-loop theorem. -/
def exBuildFiles : List FileInfo :=
  [{ srcPath := ["src", "a.ts"], outPath := ["out", "a.js"] },
   { srcPath := ["src", "bad.ts"], outPath := ["out", "bad.js"] },
   { srcPath := ["src", "z.ts"], outPath := ["out", "z.js"] }]

/-- Default sucrase options used by witnesses. -/
def exSucraseOptions : SucraseOptions :=
  { transforms := ["typescript"]
    enableLegacyTypeScriptModuleInterop := false
    enableLegacyBabel5ModuleInterop := false
    jsxPragma := "React.createElement"
    jsxFragmentPragma := "React.Fragment"
    production := false }

theorem c1_sequential_abort_witness :
    ∃ pre fail post,
      exBuildFiles = pre ++ fail :: post ∧
      (∀ f ∈ pre, ∃ out, buildFileResult exBuildW exSucraseOptions f = .ok out ∧
        fileEvents exBuildW exSucraseOptions f =
          [Ev.readEv f.srcPath, Ev.writeEv f.outPath out]) ∧
      buildFileResult exBuildW exSucraseOptions fail = .error "SyntaxError: Unexpected token" ∧
      ({ dirs := [], events := [Ev.readEv ["src", "a.ts"], Ev.writeEv ["out", "a.js"] "built",
          Ev.readEv ["src", "bad.ts"]] } : St).events =
        ({ dirs := [], events := [] } : St).events ++
          ((pre.map (fileEvents exBuildW exSucraseOptions)).flatten) ++
          [Ev.readEv fail.srcPath] :=
  (c1_sequential_abort exBuildW exSucraseOptions exBuildFiles
      { dirs := [], events := [] }).2
    "SyntaxError: Unexpected token"
    { dirs := [], events := [Ev.readEv ["src", "a.ts"], Ev.writeEv ["out", "a.js"] "built",
        Ev.readEv ["src", "bad.ts"]] }
    rfl

/-! ### Mode selection -/

/-- **C8**: the orchestrator selects explicit tree discovery when both an
output directory and a source directory are present; otherwise, with a
project directory present, it runs manifest resolution then project file
resolution; otherwise it fails with the configuration error message and the
state (directories and trace) unchanged, so no file I/O has happened. -/
theorem c8_mode_selection (w : World) (options : CLIOptions) (st : St) :
    ((options.outDirPath.isSome && options.srcDirPath.isSome) = true →
      (∀ files st1, findFiles w.srcTree options st = .ok (files, st1) →
        buildDirectory w options st = buildFiles w options.sucraseOptions files st1) ∧
      (∀ e, findFiles w.srcTree options st = .error e →
        buildDirectory w options st = .error e)) ∧
    ((options.outDirPath.isSome && options.srcDirPath.isSome) = false →
      options.project.isSome = true →
      (∀ options1, updateOptionsFromProject w options st = .ok options1 →
        (∀ files st1, runGlob w options1 st = .ok (files, st1) →
          buildDirectory w options st = buildFiles w options1.sucraseOptions files st1) ∧
        (∀ e, runGlob w options1 st = .error e → buildDirectory w options st = .error e)) ∧
      (∀ e, updateOptionsFromProject w options st = .error e →
        buildDirectory w options st = .error e)) ∧
    ((options.outDirPath.isSome && options.srcDirPath.isSome) = false →
      options.project.isSome = false →
      buildDirectory w options st = .error ("Project or Source directory required.", st)) := by
  refine ⟨?_, ?_, ?_⟩
  · intro hb
    constructor
    · intro files st1 hf
      unfold buildDirectory
      simp only [hb, if_true, hf]
    · intro e hf
      unfold buildDirectory
      simp only [hb, if_true, hf]
  · intro hb hproj
    constructor
    · intro options1 hu
      constructor
      · intro files st1 hg
        unfold buildDirectory
        simp only [hb, Bool.false_eq_true, if_false, hproj, if_true, hu, hg]
      · intro e hg
        unfold buildDirectory
        simp only [hb, Bool.false_eq_true, if_false, hproj, if_true, hu, hg]
    · intro e hu
      unfold buildDirectory
      simp only [hb, Bool.false_eq_true, if_false, hproj, if_true, hu]
  · intro hb hproj
    unfold buildDirectory
    simp only [hb, Bool.false_eq_true, if_false, hproj]

/-- An options record with no mode information at all. -/
def emptyOptions : CLIOptions :=
  { outDirPath := none, srcDirPath := none, project := none, outExtension := "js"
    excludeDirs := [], quiet := false, sucraseOptions := exSucraseOptions }

theorem c8_mode_selection_witness :
    buildDirectory exBuildW emptyOptions { dirs := [], events := [] } =
      .error ("Project or Source directory required.", { dirs := [], events := [] }) :=
  (c8_mode_selection exBuildW emptyOptions { dirs := [], events := [] }).2.2 rfl rfl

/-! ### Manifest resolution -/

/-- JavaScript field lookup on a plain object literal. -/
def propOf (fields : List (String × Json)) (k : String) : JsVal :=
  match fields.lookup k with
  | some v => .val v
  | none => .undefVal

theorem readProp_obj (fields : List (String × Json)) (k : String) :
    readProp (.val (.obj fields)) k = .ok (propOf fields k) := rfl

/-- The pure outcome of manifest resolution on a manifest whose
`compilerOptions` member is the object `co`. -/
def resolveSpec (w : World) (options : CLIOptions) (proj : FPath)
    (co : List (String × Json)) : CLIOptions :=
  let so := options.sucraseOptions
  let so := if so.transforms.contains "typescript" then so
    else { so with transforms := so.transforms ++ ["typescript"] }
  let options1 := { options with sucraseOptions := so }
  let options2 :=
    if truthyJs (propOf co "outDir") then
      match co.lookup "outDir" with
      | some (.str sdir) =>
          { options1 with outDirPath := some (w.cwd ++ proj ++ splitPath sdir) }
      | _ => options1
    else options1
  let options3 :=
    if isLiterallyTrue (propOf co "esModuleInterop") then options2
    else { options2 with sucraseOptions :=
      { options2.sucraseOptions with enableLegacyTypeScriptModuleInterop := true } }
  if isCommonjsStr (propOf co "module") then
    if options3.sucraseOptions.transforms.contains "imports" then options3
    else { options3 with sucraseOptions :=
      { options3.sucraseOptions with
        transforms := options3.sucraseOptions.transforms ++ ["imports"] } }
  else options3

/-- Manifest resolution succeeds and computes `resolveSpec` whenever the
manifest parses to an object with an object `compilerOptions` member whose
`outDir`, when truthy, is a string. -/
theorem updateOptionsFromProject_ok (w : World) (options : CLIOptions) (st : St)
    (proj : FPath) (str : String) (kvs co : List (String × Json))
    (hp : options.project = some proj)
    (hr : w.readF (proj ++ ["tsconfig.json"]) = .ok str)
    (hj : w.parseJson str = .ok (.obj kvs))
    (hco : kvs.lookup "compilerOptions" = some (.obj co))
    (hout : truthyJs (propOf co "outDir") = false ∨
      ∃ sdir, co.lookup "outDir" = some (.str sdir)) :
    updateOptionsFromProject w options st = .ok (resolveSpec w options proj co) := by
  have hcoProp : propOf kvs "compilerOptions" = .val (.obj co) := by
    unfold propOf
    rw [hco]
  unfold updateOptionsFromProject resolveSpec
  simp only [hp, hr, hj, readProp_obj, hcoProp]
  cases htr : truthyJs (propOf co "outDir") with
  | false =>
    simp only [htr, Bool.false_eq_true, if_false]
    repeat first | rfl | split | simp only []
  | true =>
    rcases hout with hout | ⟨sdir, hsdir⟩
    · rw [hout] at htr
      cases htr
    · have hstr : propOf co "outDir" = .val (.str sdir) := by
        unfold propOf
        rw [hsdir]
      simp only [htr, if_true, hstr, hsdir]
      repeat first | rfl | split | simp only []

/-- **C9**: when the manifest parses as JSON but has no `compilerOptions`
member, manifest resolution throws the TypeError from reading a property of
`undefined`, and the build aborts with the state unchanged — before any
FilePair has been discovered. -/
theorem c9_missing_compiler_options_throws (w : World) (options : CLIOptions) (st : St)
    (proj : FPath) (str : String) (kvs : List (String × Json))
    (hmode : (options.outDirPath.isSome && options.srcDirPath.isSome) = false)
    (hp : options.project = some proj)
    (hr : w.readF (proj ++ ["tsconfig.json"]) = .ok str)
    (hj : w.parseJson str = .ok (.obj kvs))
    (habs : kvs.lookup "compilerOptions" = none) :
    buildDirectory w options st =
      .error ("TypeError: Cannot read properties of undefined (reading outDir)", st) := by
  have habsProp : propOf kvs "compilerOptions" = .undefVal := by
    unfold propOf
    rw [habs]
  have hupd : updateOptionsFromProject w options st =
      .error ("TypeError: Cannot read properties of undefined (reading outDir)", st) := by
    unfold updateOptionsFromProject
    simp only [hp, hr, hj, readProp, habs]
    rfl
  unfold buildDirectory
  simp only [hmode, Bool.false_eq_true, if_false, hp, Option.isSome_some, if_true, hupd]

/-- Concrete world used to witness the missing-`compilerOptions` theorem. -/
def exC9W : World :=
  { cwd := []
    srcTree := []
    readF := fun p => if p = ["p", "tsconfig.json"] then .ok "cfg" else .error "ENOENT"
    parseJson := fun s =>
      if s = "cfg" then .ok (.obj [("files", .arr [.str "x.ts"])]) else .error "SyntaxError"
    glob := fun _ => []
    transformF := fun _ _ _ => .ok "built"
    writeOk := fun _ => true }

/-- Concrete project-mode options used by the project-mode witnesses. -/
def exProjOptions : CLIOptions :=
  { outDirPath := none, srcDirPath := none, project := some ["p"], outExtension := "js"
    excludeDirs := [], quiet := false
    sucraseOptions :=
      { transforms := [], enableLegacyTypeScriptModuleInterop := false
        enableLegacyBabel5ModuleInterop := false, jsxPragma := "React.createElement"
        jsxFragmentPragma := "React.Fragment", production := false } }

/-- Resolution never changes the project directory. -/
theorem resolveSpec_project (w : World) (options : CLIOptions) (proj : FPath)
    (co : List (String × Json)) :
    (resolveSpec w options proj co).project = options.project := by
  unfold resolveSpec
  repeat first | rfl | split | simp only []

/-- Resolution never changes the source directory or the quiet flag, and
keeps the output extension and excluded names. -/
theorem resolveSpec_outExtension (w : World) (options : CLIOptions) (proj : FPath)
    (co : List (String × Json)) :
    (resolveSpec w options proj co).outExtension = options.outExtension := by
  unfold resolveSpec
  repeat first | rfl | split | simp only []

/-- When the manifest has no truthy `outDir`, resolution leaves the output
directory exactly as it was. -/
theorem resolveSpec_outDirPath_of_falsy (w : World) (options : CLIOptions) (proj : FPath)
    (co : List (String × Json)) (h : truthyJs (propOf co "outDir") = false) :
    (resolveSpec w options proj co).outDirPath = options.outDirPath := by
  unfold resolveSpec
  simp only [h, Bool.false_eq_true, if_false]
  repeat first | rfl | split | simp only []

/-- The legacy TypeScript interop flag after resolution: unchanged when
`esModuleInterop` is literally `true`, forced `true` otherwise. -/
theorem resolveSpec_interop_flag (w : World) (options : CLIOptions) (proj : FPath)
    (co : List (String × Json)) :
    (resolveSpec w options proj co).sucraseOptions.enableLegacyTypeScriptModuleInterop =
      (if isLiterallyTrue (propOf co "esModuleInterop") = true then
        options.sucraseOptions.enableLegacyTypeScriptModuleInterop
      else true) := by
  unfold resolveSpec
  repeat first | rfl | split | simp only []

/-- Occurrences of the "typescript" pass after resolution: one is appended
when absent, and existing occurrences are kept as they are. -/
theorem resolveSpec_typescript_count (w : World) (options : CLIOptions) (proj : FPath)
    (co : List (String × Json)) :
    ((resolveSpec w options proj co).sucraseOptions.transforms.count "typescript" =
      if options.sucraseOptions.transforms.contains "typescript" = true then
        options.sucraseOptions.transforms.count "typescript"
      else options.sucraseOptions.transforms.count "typescript" + 1) := by
  have hone : List.count "typescript" ["typescript"] = 1 := by decide
  have hzero : List.count "typescript" ["imports"] = 0 := by decide
  cases h1 : options.sucraseOptions.transforms.contains "typescript" <;>
  cases h2 : truthyJs (propOf co "outDir") <;>
  cases h3 : isLiterallyTrue (propOf co "esModuleInterop") <;>
  cases h4 : isCommonjsStr (propOf co "module") <;>
    simp only [resolveSpec, h1, h2, h3, h4, Bool.false_eq_true, if_false, if_true] <;>
    (repeat first | rfl | split | simp only []) <;>
    try simp [List.count_append, hone, hzero] <;>
    try (split <;> simp [List.count_append, hone, hzero])

theorem c9_missing_compiler_options_throws_witness :
    buildDirectory exC9W exProjOptions { dirs := [["p"]], events := [] } =
      .error ("TypeError: Cannot read properties of undefined (reading outDir)",
        { dirs := [["p"]], events := [] }) :=
  c9_missing_compiler_options_throws exC9W exProjOptions { dirs := [["p"]], events := [] }
    ["p"] "cfg" [("files", .arr [.str "x.ts"])] rfl rfl rfl rfl rfl

/-- **C4**: on a parsed manifest with a `compilerOptions` object (the data
model of the spec; a truthy `outDir`, when present, is a string), resolution
leaves the legacy TypeScript interop flag unchanged exactly when
`esModuleInterop` is literally the boolean `true`, and forces it to `true`
for every other value — absent, `false`, or any non-boolean-true value. -/
theorem c4_es_module_interop (w : World) (options : CLIOptions) (st : St)
    (proj : FPath) (str : String) (kvs co : List (String × Json))
    (hp : options.project = some proj)
    (hr : w.readF (proj ++ ["tsconfig.json"]) = .ok str)
    (hj : w.parseJson str = .ok (.obj kvs))
    (hco : kvs.lookup "compilerOptions" = some (.obj co))
    (hout : truthyJs (propOf co "outDir") = false ∨
      ∃ sdir, co.lookup "outDir" = some (.str sdir)) :
    ∃ options1, updateOptionsFromProject w options st = .ok options1 ∧
      options1.sucraseOptions.enableLegacyTypeScriptModuleInterop =
        (if isLiterallyTrue (propOf co "esModuleInterop") = true then
          options.sucraseOptions.enableLegacyTypeScriptModuleInterop
        else true) :=
  ⟨resolveSpec w options proj co,
   updateOptionsFromProject_ok w options st proj str kvs co hp hr hj hco hout,
   resolveSpec_interop_flag w options proj co⟩

/-- Concrete world whose manifest sets `esModuleInterop` to `false`. -/
def exC4W : World :=
  { cwd := []
    srcTree := []
    readF := fun p => if p = ["p", "tsconfig.json"] then .ok "cfg" else .error "ENOENT"
    parseJson := fun s =>
      if s = "cfg" then
        .ok (.obj [("compilerOptions", .obj [("esModuleInterop", .bool false)])])
      else .error "SyntaxError"
    glob := fun _ => []
    transformF := fun _ _ _ => .ok "built"
    writeOk := fun _ => true }

theorem c4_es_module_interop_witness :
    ∃ options1,
      updateOptionsFromProject exC4W exProjOptions { dirs := [], events := [] } = .ok options1 ∧
      options1.sucraseOptions.enableLegacyTypeScriptModuleInterop =
        (if isLiterallyTrue (propOf [("esModuleInterop", .bool false)] "esModuleInterop") = true
        then exProjOptions.sucraseOptions.enableLegacyTypeScriptModuleInterop
        else true) :=
  c4_es_module_interop exC4W exProjOptions { dirs := [], events := [] } ["p"] "cfg"
    [("compilerOptions", .obj [("esModuleInterop", .bool false)])]
    [("esModuleInterop", .bool false)] rfl rfl rfl rfl (Or.inl rfl)

/-- Project-mode options whose transforms list already lists "typescript"
twice (reachable through the programmatic `CLIOptions` surface). -/
def exC3Options : CLIOptions :=
  { exProjOptions with sucraseOptions :=
    { exProjOptions.sucraseOptions with transforms := ["typescript", "typescript"] } }

/-- Concrete world whose manifest has an empty `compilerOptions` object. -/
def exC3W : World :=
  { cwd := []
    srcTree := []
    readF := fun p => if p = ["p", "tsconfig.json"] then .ok "cfg" else .error "ENOENT"
    parseJson := fun s =>
      if s = "cfg" then .ok (.obj [("compilerOptions", .obj [])]) else .error "SyntaxError"
    glob := fun _ => []
    transformF := fun _ _ _ => .ok "built"
    writeOk := fun _ => true }

/-- **C3 counterexample**: an input transforms list that already contains
"typescript" twice still contains it twice after manifest resolution — not
exactly once — because the resolver only appends when the pass is absent and
never deduplicates. -/
theorem c3_counterexample_duplicates_kept :
    ∃ options1,
      updateOptionsFromProject exC3W exC3Options { dirs := [], events := [] } = .ok options1 ∧
      options1.sucraseOptions.transforms.count "typescript" = 2 :=
  ⟨_, rfl, rfl⟩

/-- **C3 (amended)**: after manifest resolution the enabled-transforms list
contains "typescript" at least once: one copy is appended when the pass is
absent and existing copies are kept unchanged, so the count is exactly one
whenever the input listed the pass at most once — in particular for every
options record built by the CLI front end in project mode, whose transforms
list is empty. -/
theorem c3_amended_typescript_present (w : World) (options : CLIOptions) (st : St)
    (proj : FPath) (str : String) (kvs co : List (String × Json))
    (hp : options.project = some proj)
    (hr : w.readF (proj ++ ["tsconfig.json"]) = .ok str)
    (hj : w.parseJson str = .ok (.obj kvs))
    (hco : kvs.lookup "compilerOptions" = some (.obj co))
    (hout : truthyJs (propOf co "outDir") = false ∨
      ∃ sdir, co.lookup "outDir" = some (.str sdir)) :
    (∃ options1, updateOptionsFromProject w options st = .ok options1 ∧
      options1.sucraseOptions.transforms.count "typescript" =
        (if options.sucraseOptions.transforms.contains "typescript" = true then
          options.sucraseOptions.transforms.count "typescript"
        else options.sucraseOptions.transforms.count "typescript" + 1) ∧
      (options.sucraseOptions.transforms.count "typescript" ≤ 1 →
        options1.sucraseOptions.transforms.count "typescript" = 1)) ∧
    (∀ c options0, runValidate c = .ok options0 → options0.project.isSome = true →
      options0.sucraseOptions.transforms = []) := by
  constructor
  · refine ⟨resolveSpec w options proj co,
      updateOptionsFromProject_ok w options st proj str kvs co hp hr hj hco hout,
      resolveSpec_typescript_count w options proj co, ?_⟩
    intro hle
    rw [resolveSpec_typescript_count w options proj co]
    cases hc : options.sucraseOptions.transforms.contains "typescript" with
    | false =>
      have hnotmem : "typescript" ∉ options.sucraseOptions.transforms := by
        simpa using hc
      have h0 : options.sucraseOptions.transforms.count "typescript" = 0 :=
        List.count_eq_zero.mpr hnotmem
      simp [h0]
    | true =>
      have hmem : "typescript" ∈ options.sucraseOptions.transforms := by
        simpa using hc
      have h1 : 0 < options.sucraseOptions.transforms.count "typescript" :=
        List.count_pos_iff.mpr hmem
      simp only [if_true]
      omega
  · intro c options0 hv hproj
    unfold runValidate at hv
    cases hcp : c.project.isSome with
    | true =>
      rw [hcp, if_pos rfl] at hv
      by_cases hcond : (c.outDir.isSome || optStrTruthy c.transforms || c.args.head?.isSome ||
          c.enableLegacyTypescriptModuleInterop) = true
      · rw [if_pos hcond] at hv
        cases hv
      · rw [if_neg hcond] at hv
        cases hv
        have htr : optStrTruthy c.transforms = false := by
          simp only [Bool.or_eq_true, not_or, Bool.not_eq_true] at hcond
          exact hcond.1.1.2
        unfold mkOptions
        cases hts : c.transforms with
        | none => rfl
        | some s =>
          unfold optStrTruthy at htr
          rw [hts] at htr
          simp only [Bool.not_eq_false'] at htr
          simp [htr]
    | false =>
      rw [hcp] at hv
      simp only [Bool.false_eq_true, if_false] at hv
      by_cases h1 : c.outDir.isSome = true
      · rw [if_neg (by simp [h1])] at hv
        by_cases h2 : optStrTruthy c.transforms = true
        · rw [if_neg (by simp [h2])] at hv
          by_cases h3 : c.args.head?.isSome = true
          · rw [if_neg (by simp [h3])] at hv
            cases hv
            rw [mkOptions] at hproj
            simp only at hproj
            rw [hcp] at hproj
            cases hproj
          · rw [if_pos (by simp [h3])] at hv
            cases hv
        · rw [if_pos (by simp [h2])] at hv
          cases hv
      · rw [if_pos (by simp [h1])] at hv
        cases hv

theorem c3_amended_typescript_present_witness :
    (∃ options1,
      updateOptionsFromProject exC3W exProjOptions { dirs := [], events := [] } = .ok options1 ∧
      options1.sucraseOptions.transforms.count "typescript" =
        (if exProjOptions.sucraseOptions.transforms.contains "typescript" = true then
          exProjOptions.sucraseOptions.transforms.count "typescript"
        else exProjOptions.sucraseOptions.transforms.count "typescript" + 1) ∧
      (exProjOptions.sucraseOptions.transforms.count "typescript" ≤ 1 →
        options1.sucraseOptions.transforms.count "typescript" = 1)) ∧
    (∀ c options0, runValidate c = .ok options0 → options0.project.isSome = true →
      options0.sucraseOptions.transforms = []) :=
  c3_amended_typescript_present exC3W exProjOptions { dirs := [], events := [] } ["p"] "cfg"
    [("compilerOptions", .obj [])] [] rfl rfl rfl rfl (Or.inl rfl)

/-- **C10**: the CLI rejects `--project` together with an explicit out
directory, so in project mode the output directory can only come from
`compilerOptions.outDir`; when the manifest omits (or has a falsy) `outDir`,
the output directory stays undefined and project file resolution fails with
a TypeError — with the state unchanged, before producing any FilePair — and
so does the whole build. -/
theorem c10_outdir_only_from_manifest (w : World) (options : CLIOptions) (st : St)
    (proj : FPath) (str : String) (kvs co : List (String × Json))
    (hmode : (options.outDirPath.isSome && options.srcDirPath.isSome) = false)
    (hnone : options.outDirPath = none)
    (hp : options.project = some proj)
    (hr : w.readF (proj ++ ["tsconfig.json"]) = .ok str)
    (hj : w.parseJson str = .ok (.obj kvs))
    (hco : kvs.lookup "compilerOptions" = some (.obj co))
    (houtf : truthyJs (propOf co "outDir") = false) :
    (∀ c, c.project.isSome = true → c.outDir.isSome = true →
      runValidate c = .error ("If TypeScript project is specified, out directory, " ++
        "transforms, source directory, and --enable-legacy-typescript-module-interop " ++
        "may not be specified.")) ∧
    (∃ options1, updateOptionsFromProject w options st = .ok options1 ∧
      options1.outDirPath = none ∧
      runGlob w options1 st = .error ("TypeError: path argument is undefined", st) ∧
      buildDirectory w options st = .error ("TypeError: path argument is undefined", st)) := by
  have hupd := updateOptionsFromProject_ok w options st proj str kvs co hp hr hj hco
    (Or.inl houtf)
  have hnone1 : (resolveSpec w options proj co).outDirPath = none := by
    rw [resolveSpec_outDirPath_of_falsy w options proj co houtf, hnone]
  have hproj1 : (resolveSpec w options proj co).project = some proj := by
    rw [resolveSpec_project w options proj co, hp]
  have hglob : runGlob w (resolveSpec w options proj co) st =
      .error ("TypeError: path argument is undefined", st) := by
    unfold runGlob
    simp only [hproj1, hr, hj, readProp_obj, hnone1]
  refine ⟨?_, resolveSpec w options proj co, hupd, hnone1, hglob, ?_⟩
  · intro c h1 h2
    unfold runValidate
    rw [h1, if_pos rfl, if_pos (by simp [h2])]
    rfl
  · unfold buildDirectory
    simp only [hmode, Bool.false_eq_true, if_false, hp, Option.isSome_some, if_true,
      hupd, hglob]

theorem c10_outdir_only_from_manifest_witness :
    (∀ c, c.project.isSome = true → c.outDir.isSome = true →
      runValidate c = .error ("If TypeScript project is specified, out directory, " ++
        "transforms, source directory, and --enable-legacy-typescript-module-interop " ++
        "may not be specified.")) ∧
    (∃ options1,
      updateOptionsFromProject exC3W exProjOptions { dirs := [], events := [] } = .ok options1 ∧
      options1.outDirPath = none ∧
      runGlob exC3W options1 { dirs := [], events := [] } =
        .error ("TypeError: path argument is undefined", { dirs := [], events := [] }) ∧
      buildDirectory exC3W exProjOptions { dirs := [], events := [] } =
        .error ("TypeError: path argument is undefined", { dirs := [], events := [] })) :=
  c10_outdir_only_from_manifest exC3W exProjOptions { dirs := [], events := [] } ["p"] "cfg"
    [("compilerOptions", .obj [])] [] rfl rfl rfl rfl rfl rfl rfl

/-! ### Structure of project-mode resolution (`runGlob`) -/

/-- The first-referenced-order accumulation of needed output directories:
the dedup-push into `outDirs` of cli.ts (lines 182-185, 208-211), folded
over the parents of the produced output paths. -/
def firstRefDirs : List FPath → List FPath → List FPath
  | [], acc => acc
  | d :: ds, acc => firstRefDirs ds (if acc.contains d then acc else acc ++ [d])

theorem firstRefDirs_append (l1 l2 : List FPath) (acc : List FPath) :
    firstRefDirs (l1 ++ l2) acc = firstRefDirs l2 (firstRefDirs l1 acc) := by
  induction l1 generalizing acc with
  | nil => rfl
  | cons d ds ih =>
    simp only [List.cons_append, firstRefDirs]
    exact ih _

/-- Whether an event is a write to the path `p`. -/
def isWriteTo (p : FPath) : Ev → Bool
  | Ev.writeEv q _ => q == p
  | _ => false

/-- Checks that no output directory needed by a pair (the parent of its
output path) is created before any pair is discovered: scanning the trace,
once such a creation is seen, no discovery event may follow. -/
def allMkdirsAfterPairsGo (needed : List FPath) : List Ev → Bool → Bool
  | [], _ => true
  | Ev.pairEv _ :: rest, seen => !seen && allMkdirsAfterPairsGo needed rest seen
  | Ev.mkdirEv d :: rest, seen => allMkdirsAfterPairsGo needed rest (seen || needed.contains d)
  | _ :: rest, seen => allMkdirsAfterPairsGo needed rest seen

/-- Every creation of a needed output directory happens after every pair
discovery in the trace. -/
def allMkdirsAfterPairs (evs : List Ev) (pairs : List FileInfo) : Bool :=
  allMkdirsAfterPairsGo (pairs.map fun f => parentDir f.outPath) evs false

/-- Characterization of the `files` loop on success: it only appends pairs,
records each pair discovery in the trace, leaves directories untouched, and
accumulates needed output directories in first-referenced order. -/
theorem filesLoop_spec (ap od : FPath) (oe : String) :
    ∀ (elems : List Json) (acc : List FileInfo) (outDirs : List FPath) (st : St)
      (acc' : List FileInfo) (outDirs' : List FPath) (st' : St),
      filesLoop ap od oe elems acc outDirs st = .ok (acc', outDirs', st') →
      ∃ newPairs,
        acc' = acc ++ newPairs ∧
        st' = { st with events := st.events ++ newPairs.map Ev.pairEv } ∧
        outDirs' = firstRefDirs (newPairs.map fun f => parentDir f.outPath) outDirs := by
  intro elems
  induction elems with
  | nil =>
    intro acc outDirs st acc' outDirs' st' h
    rw [filesLoop] at h
    cases h
    exact ⟨[], by simp, by simp, rfl⟩
  | cons e rest ih =>
    intro acc outDirs st acc' outDirs' st' h
    cases e with
    | str file =>
      rw [filesLoop] at h
      by_cases h1 : endsWithS file ".d.ts" = true
      · rw [if_pos h1] at h
        exact ih acc outDirs st acc' outDirs' st' h
      · rw [if_neg h1] at h
        by_cases h2 : (!endsWithS file ".ts" && !endsWithS file ".js") = true
        · rw [if_pos h2] at h
          exact ih acc outDirs st acc' outDirs' st' h
        · rw [if_neg h2] at h
          obtain ⟨newPairs, ha, hs, ho⟩ := ih _ _ _ acc' outDirs' st' h
          refine ⟨FileInfo.mk (ap ++ splitPath file)
            (replaceLastSegExt (od ++ splitPath file) oe) :: newPairs, ?_, ?_, ?_⟩
          · rw [ha]; simp
          · rw [hs]; simp
          · rw [ho]
            simp only [List.map_cons, firstRefDirs]
    | null => simp [filesLoop] at h
    | bool b => simp [filesLoop] at h
    | num n => simp [filesLoop] at h
    | arr elems2 => simp [filesLoop] at h
    | obj fields => simp [filesLoop] at h

/-- Characterization of the loop over one glob expansion, same shape as the
`files` loop. -/
theorem globLoop_spec (ap od : FPath) (oe : String) :
    ∀ (gmatches : List FPath) (acc : List FileInfo) (outDirs : List FPath) (st : St)
      (acc' : List FileInfo) (outDirs' : List FPath) (st' : St),
      globLoop ap od oe gmatches acc outDirs st = .ok (acc', outDirs', st') →
      ∃ newPairs,
        acc' = acc ++ newPairs ∧
        st' = { st with events := st.events ++ newPairs.map Ev.pairEv } ∧
        outDirs' = firstRefDirs (newPairs.map fun f => parentDir f.outPath) outDirs := by
  intro gmatches
  induction gmatches with
  | nil =>
    intro acc outDirs st acc' outDirs' st' h
    rw [globLoop] at h
    cases h
    exact ⟨[], by simp, by simp, rfl⟩
  | cons file rest ih =>
    intro acc outDirs st acc' outDirs' st' h
    rw [globLoop] at h
    by_cases h1 : (!endsWithPath file ".ts" && !endsWithPath file ".js") = true
    · rw [if_pos h1] at h
      exact ih acc outDirs st acc' outDirs' st' h
    · rw [if_neg h1] at h
      by_cases h2 : endsWithPath file ".d.ts" = true
      · rw [if_pos h2] at h
        exact ih acc outDirs st acc' outDirs' st' h
      · rw [if_neg h2] at h
        obtain ⟨newPairs, ha, hs, ho⟩ := ih _ _ _ acc' outDirs' st' h
        refine ⟨FileInfo.mk file
          (replaceLastSegExt (od ++ relativeSegs ap file) oe) :: newPairs, ?_, ?_, ?_⟩
        · rw [ha]; simp
        · rw [hs]; simp
        · rw [ho]
          simp only [List.map_cons, firstRefDirs]

/-- Characterization of the `include` loop on success: the composition of
the per-pattern glob loops. -/
theorem includeLoop_spec (w : World) (ap od : FPath) (oe : String) :
    ∀ (pats : List Json) (acc : List FileInfo) (outDirs : List FPath) (st : St)
      (acc' : List FileInfo) (outDirs' : List FPath) (st' : St),
      includeLoop w ap od oe pats acc outDirs st = .ok (acc', outDirs', st') →
      ∃ newPairs,
        acc' = acc ++ newPairs ∧
        st' = { st with events := st.events ++ newPairs.map Ev.pairEv } ∧
        outDirs' = firstRefDirs (newPairs.map fun f => parentDir f.outPath) outDirs := by
  intro pats
  induction pats with
  | nil =>
    intro acc outDirs st acc' outDirs' st' h
    rw [includeLoop] at h
    cases h
    exact ⟨[], by simp, by simp, rfl⟩
  | cons p rest ih =>
    intro acc outDirs st acc' outDirs' st' h
    cases p with
    | str pattern =>
      rw [includeLoop] at h
      cases hg : globLoop ap od oe (w.glob (ap ++ splitPath pattern)) acc outDirs st with
      | error e =>
        rw [hg] at h
        cases h
      | ok r =>
        obtain ⟨acc1, outDirs1, st1⟩ := r
        rw [hg] at h
        obtain ⟨new1, ha1, hs1, ho1⟩ := globLoop_spec ap od oe _ _ _ _ _ _ _ hg
        obtain ⟨new2, ha2, hs2, ho2⟩ := ih _ _ _ acc' outDirs' st' h
        refine ⟨new1 ++ new2, ?_, ?_, ?_⟩
        · rw [ha2, ha1]; simp
        · rw [hs2, hs1]; simp
        · rw [ho2, ho1, List.map_append, firstRefDirs_append]
    | null => simp [includeLoop] at h
    | bool b => simp [includeLoop] at h
    | num n => simp [includeLoop] at h
    | arr elems2 => simp [includeLoop] at h
    | obj fields => simp [includeLoop] at h

/-- Characterization of the final directory-creation loop on success: it
creates exactly the recorded directories that do not exist yet, each at most
once, in recorded order. -/
theorem mkdirLoop_spec :
    ∀ (ds : List FPath) (st st' : St),
      mkdirLoop ds st = .ok st' →
      ∃ created,
        st' = { dirs := st.dirs ++ created, events := st.events ++ created.map Ev.mkdirEv } ∧
        created.Sublist ds ∧ (∀ d ∈ created, d ∉ st.dirs) ∧ created.Nodup := by
  intro ds
  induction ds with
  | nil =>
    intro st st' h
    rw [mkdirLoop] at h
    cases h
    exact ⟨[], by simp, by simp, by simp, by simp⟩
  | cons d rest ih =>
    intro st st' h
    rw [mkdirLoop] at h
    cases he : ensureDirE d st with
    | error e =>
      rw [he] at h
      cases h
    | ok st1 =>
      rw [he] at h
      rcases ensureDirE_ok _ _ _ he with ⟨hex, rfl⟩ | ⟨hex, rfl⟩
      · obtain ⟨created, hst, hsub, hnotin, hnd⟩ := ih _ _ h
        exact ⟨created, hst, hsub.cons d, hnotin, hnd⟩
      · obtain ⟨created, hst, hsub, hnotin, hnd⟩ := ih _ _ h
        refine ⟨d :: created, ?_, hsub.cons₂ d, ?_, ?_⟩
        · rw [hst]; simp
        · intro x hx
          rcases List.mem_cons.mp hx with rfl | hx
          · simpa [dirExists] using hex
          · intro hmem
            exact hnotin x hx (by simp [hmem])
        · rw [List.nodup_cons]
          refine ⟨?_, hnd⟩
          intro hdmem
          have := hnotin d hdmem
          simp at this

/-- Case analysis of the `files` branch on success: either the field is
falsy and the loop is skipped, or it is an array and the loop ran. -/
theorem filesBranch_cases (ap od : FPath) (oe : String) (v : JsVal) (st : St)
    (res : List FileInfo × List FPath × St)
    (h : filesBranch ap od oe v st = .ok res) :
    (truthyJs v = false ∧ res = ([], [], st)) ∨
    (∃ elems, v = .val (.arr elems) ∧ filesLoop ap od oe elems [] [] st = .ok res) := by
  unfold filesBranch at h
  by_cases ht : truthyJs v = true
  · rw [if_pos ht] at h
    right
    cases v with
    | undefVal => simp [truthyJs] at ht
    | val j =>
      cases j with
      | arr elems => exact ⟨elems, rfl, h⟩
      | null => cases h
      | bool b => cases h
      | str s => cases h
      | num n => cases h
      | obj fields => cases h
  · rw [if_neg ht] at h
    cases h
    exact Or.inl ⟨by simpa using ht, rfl⟩

/-- Case analysis of the `include` branch on success. -/
theorem includeBranch_cases (w : World) (ap od : FPath) (oe : String) (v : JsVal)
    (acc : List FileInfo) (outDirs : List FPath) (st : St)
    (res : List FileInfo × List FPath × St)
    (h : includeBranch w ap od oe v acc outDirs st = .ok res) :
    (truthyJs v = false ∧ res = (acc, outDirs, st)) ∨
    (∃ pats, v = .val (.arr pats) ∧
      includeLoop w ap od oe pats acc outDirs st = .ok res) := by
  unfold includeBranch at h
  by_cases ht : truthyJs v = true
  · rw [if_pos ht] at h
    right
    cases v with
    | undefVal => simp [truthyJs] at ht
    | val j =>
      cases j with
      | arr pats => exact ⟨pats, rfl, h⟩
      | null => cases h
      | bool b => cases h
      | str s => cases h
      | num n => cases h
      | obj fields => cases h
  · rw [if_neg ht] at h
    cases h
    exact Or.inl ⟨by simpa using ht, rfl⟩

/-- Full characterization of a successful project-mode resolution: the trace
grows by an optional creation of the output root, then one discovery event
per produced pair in order, then the creations of the needed output
directories — each at most once (also counting the root), in the order first
referenced by the pair list. -/
theorem runGlob_ok_spec (w : World) (options : CLIOptions) (st : St)
    (files : List FileInfo) (st1 : St)
    (h : runGlob w options st = .ok (files, st1)) :
    ∃ proj od rootEvs created,
      options.project = some proj ∧
      options.outDirPath = some od ∧
      st1.events = st.events ++ rootEvs ++ files.map Ev.pairEv ++ created.map Ev.mkdirEv ∧
      (rootEvs = [] ∨ rootEvs = [Ev.mkdirEv od]) ∧
      created.Sublist (firstRefDirs (files.map fun f => parentDir f.outPath) []) ∧
      (od :: created).Nodup := by
  unfold runGlob at h
  cases hproj : options.project with
  | none => simp only [hproj] at h; cases h
  | some proj =>
  simp only [hproj] at h
  cases hrf : w.readF (proj ++ ["tsconfig.json"]) with
  | error e => simp only [hrf] at h; cases h
  | ok str =>
  simp only [hrf] at h
  cases hpj : w.parseJson str with
  | error e => simp only [hpj] at h; cases h
  | ok json =>
  simp only [hpj] at h
  cases hfv : readProp (.val json) "files" with
  | error e => simp only [hfv] at h; cases h
  | ok filesVal =>
  simp only [hfv] at h
  cases hiv : readProp (.val json) "include" with
  | error e => simp only [hiv] at h; cases h
  | ok includeVal =>
  simp only [hiv] at h
  cases hod : options.outDirPath with
  | none => simp only [hod] at h; cases h
  | some od =>
  simp only [hod] at h
  cases hens : ensureDirE od st with
  | error e => simp only [hens] at h; cases h
  | ok stA =>
  simp only [hens] at h
  cases hb1 : filesBranch (w.cwd ++ proj) od options.outExtension filesVal stA with
  | error e => simp only [hb1] at h; cases h
  | ok r1 =>
  obtain ⟨found1, outDirs1, stB⟩ := r1
  simp only [hb1] at h
  have hstep1 : ∃ new1, found1 = new1 ∧
      stB = { stA with events := stA.events ++ new1.map Ev.pairEv } ∧
      outDirs1 = firstRefDirs (new1.map fun f => parentDir f.outPath) [] := by
    rcases filesBranch_cases _ _ _ _ _ _ hb1 with ⟨_, hres⟩ | ⟨elems, _, hloop⟩
    · cases hres
      exact ⟨[], rfl, by simp, rfl⟩
    · obtain ⟨new1, ha, hs, ho⟩ := filesLoop_spec _ _ _ elems [] [] stA _ _ _ hloop
      exact ⟨new1, by simpa using ha, hs, ho⟩
  obtain ⟨new1, rfl, hstB, houtDirs1⟩ := hstep1
  cases hb2 : includeBranch w (w.cwd ++ proj) od options.outExtension includeVal
      found1 outDirs1 stB with
  | error e => simp only [hb2] at h; cases h
  | ok r2 =>
  obtain ⟨found2, outDirs2, stC⟩ := r2
  simp only [hb2] at h
  have hstep2 : ∃ new2, found2 = found1 ++ new2 ∧
      stC = { stB with events := stB.events ++ new2.map Ev.pairEv } ∧
      outDirs2 = firstRefDirs (new2.map fun f => parentDir f.outPath) outDirs1 := by
    rcases includeBranch_cases _ _ _ _ _ _ _ _ _ hb2 with ⟨_, hres⟩ | ⟨pats, _, hloop⟩
    · cases hres
      exact ⟨[], by simp, by simp, rfl⟩
    · obtain ⟨new2, ha, hs, ho⟩ := includeLoop_spec w _ _ _ pats found1 outDirs1 stB _ _ _ hloop
      exact ⟨new2, ha, hs, ho⟩
  obtain ⟨new2, rfl, hstC, houtDirs2⟩ := hstep2
  cases hmk : mkdirLoop outDirs2 stC with
  | error e => simp only [hmk] at h; cases h
  | ok stD =>
  simp only [hmk] at h
  cases h
  obtain ⟨created, hstD, hsub, hnotin, hnd⟩ := mkdirLoop_spec outDirs2 stC _ hmk
  rcases ensureDirE_ok _ _ _ hens with ⟨hex, rfl⟩ | ⟨hex, hstA⟩
  · refine ⟨proj, od, [], created, rfl, rfl, ?_, Or.inl rfl, ?_, ?_⟩
    · rw [hstD, hstC, hstB]
      simp
    · rw [List.map_append, firstRefDirs_append]
      rw [houtDirs2, houtDirs1] at hsub
      exact hsub
    · rw [List.nodup_cons]
      refine ⟨?_, hnd⟩
      intro hmem
      have hodin : od ∈ stC.dirs := by
        rw [hstC, hstB]
        simpa [dirExists] using hex
      exact hnotin od hmem hodin
  · refine ⟨proj, od, [Ev.mkdirEv od], created, rfl, rfl, ?_, Or.inr rfl, ?_, ?_⟩
    · rw [hstD, hstC, hstB, hstA]
      simp
    · rw [List.map_append, firstRefDirs_append]
      rw [houtDirs2, houtDirs1] at hsub
      exact hsub
    · rw [List.nodup_cons]
      refine ⟨?_, hnd⟩
      intro hmem
      have hodin : od ∈ stC.dirs := by
        rw [hstC, hstB, hstA]
        simp
      exact hnotin od hmem hodin

/-- Every event emitted by a build step is a read or a write. -/
theorem fileEvents_shape (w : World) (o : SucraseOptions) (f : FileInfo) :
    ∀ e ∈ fileEvents w o f, (∃ p, e = Ev.readEv p) ∨ ∃ p c, e = Ev.writeEv p c := by
  intro e he
  unfold fileEvents at he
  rcases hres : buildFileResult w o f with out | out <;> rw [hres] at he <;>
    simp only [List.mem_cons, List.mem_singleton, List.not_mem_nil, or_false] at he
  · rcases he with rfl
    exact Or.inl ⟨f.srcPath, rfl⟩
  · rcases he with rfl | rfl
    · exact Or.inl ⟨f.srcPath, rfl⟩
    · exact Or.inr ⟨f.outPath, out, rfl⟩

/-- **C5 counterexample**: with manifest
`{"files": ["x.ts"], "compilerOptions": {"outDir": "out"}}` and a fresh
output root, project-mode resolution creates the output directory needed by
the pair `x.ts` (the root itself) before the pair list has been computed, so
not every needed-directory creation happens after the full pair list. -/
def exC5W : World :=
  { cwd := []
    srcTree := []
    readF := fun p =>
      if p = ["p", "tsconfig.json"] then .ok "cfg"
      else if p = ["p", "x.ts"] then .ok "let x = 1" else .error "ENOENT"
    parseJson := fun s =>
      if s = "cfg" then
        .ok (.obj [("files", .arr [.str "x.ts"]),
                   ("compilerOptions", .obj [("outDir", .str "out")])])
      else .error "SyntaxError"
    glob := fun _ => []
    transformF := fun _ _ _ => .ok "transformed"
    writeOk := fun _ => true }

/-- Initial state for the C5 scenario: the project directory exists, the
output root does not. -/
def exC5St : St := { dirs := [["p"]], events := [] }

theorem c5_counterexample_root_created_early :
    ∃ options1 files st1,
      updateOptionsFromProject exC5W exProjOptions exC5St = .ok options1 ∧
      runGlob exC5W options1 exC5St = .ok (files, st1) ∧
      files ≠ [] ∧
      allMkdirsAfterPairs st1.events files = false :=
  ⟨_, _, _, rfl, rfl, by decide, rfl⟩

/-- **C5 (amended)**: in project mode, every output directory needed by a
FilePair is created at most once; the output root is ensured to exist before
discovery (its creation, when it happens, precedes the pair computation),
and every other needed directory is created after the full pair list has
been computed, in the order first referenced by the pair list,
non-recursively (`mkdirFS` fails when the parent of the directory does not
exist yet), and before any file is read or written by the build loop. -/
theorem c5_amended_dirs_once_ordered (w : World) (options : CLIOptions) (st st2 : St)
    (hmode : (options.outDirPath.isSome && options.srcDirPath.isSome) = false)
    (hproj : options.project.isSome = true)
    (h : buildDirectory w options st = .ok st2) :
    ∃ options1 files st1 od rootEvs created buildEvs,
      updateOptionsFromProject w options st = .ok options1 ∧
      runGlob w options1 st = .ok (files, st1) ∧
      buildFiles w options1.sucraseOptions files st1 = .ok st2 ∧
      options1.outDirPath = some od ∧
      st2.events = st.events ++ rootEvs ++ files.map Ev.pairEv ++
        created.map Ev.mkdirEv ++ buildEvs ∧
      (rootEvs = [] ∨ rootEvs = [Ev.mkdirEv od]) ∧
      created.Sublist (firstRefDirs (files.map fun f => parentDir f.outPath) []) ∧
      (od :: created).Nodup ∧
      (∀ e ∈ buildEvs, (∃ p, e = Ev.readEv p) ∨ ∃ p c, e = Ev.writeEv p c) ∧
      (∀ p stX, dirExists stX (parentDir p) = false → dirExists stX p = false →
        ∀ e, mkdirFS p stX ≠ .ok e ∨ parentDir p = []) := by
  unfold buildDirectory at h
  rw [hmode] at h
  simp only [Bool.false_eq_true, if_false, hproj, if_true] at h
  cases hu : updateOptionsFromProject w options st with
  | error e => rw [hu] at h; cases h
  | ok options1 =>
  simp only [hu] at h
  cases hg : runGlob w options1 st with
  | error e => rw [hg] at h; cases h
  | ok r =>
  obtain ⟨files, st1⟩ := r
  simp only [hg] at h
  obtain ⟨proj, od, rootEvs, created, _, hod, hev, hroot, hsub, hnd⟩ :=
    runGlob_ok_spec w options1 st files st1 hg
  obtain ⟨hall, hst2⟩ := buildFiles_ok_spec w options1.sucraseOptions files st1 st2 h
  refine ⟨options1, files, st1, od, rootEvs, created,
    (files.map (fileEvents w options1.sucraseOptions)).flatten, rfl, hg, h, hod, ?_, hroot,
    hsub, hnd, ?_, ?_⟩
  · rw [hst2]
    simp [hev]
  · intro e he
    rw [List.mem_flatten] at he
    obtain ⟨l, hl, hel⟩ := he
    rw [List.mem_map] at hl
    obtain ⟨f, _, rfl⟩ := hl
    exact fileEvents_shape w options1.sucraseOptions f e hel
  · intro p stX hpar hnex e
    unfold mkdirFS
    by_cases hp0 : parentDir p = []
    · exact Or.inr hp0
    · left
      rw [if_neg (by simp [hnex]), if_neg (by simp [hpar, hp0])]
      intro hc
      cases hc

/-- The single pair of the C5 scenario. -/
def exC5Pair : FileInfo := { srcPath := ["p", "x.ts"], outPath := ["p", "out", "x.js"] }

/-- The final state of the C5 scenario. -/
def exC5Final : St :=
  { dirs := [["p"], ["p", "out"]]
    events := [Ev.mkdirEv ["p", "out"], Ev.pairEv exC5Pair,
      Ev.readEv ["p", "x.ts"], Ev.writeEv ["p", "out", "x.js"] "transformed"] }

theorem c5_amended_dirs_once_ordered_witness :
    ∃ options1 files st1 od rootEvs created buildEvs,
      updateOptionsFromProject exC5W exProjOptions exC5St = .ok options1 ∧
      runGlob exC5W options1 exC5St = .ok (files, st1) ∧
      buildFiles exC5W options1.sucraseOptions files st1 = .ok exC5Final ∧
      options1.outDirPath = some od ∧
      exC5Final.events = exC5St.events ++ rootEvs ++ files.map Ev.pairEv ++
        created.map Ev.mkdirEv ++ buildEvs ∧
      (rootEvs = [] ∨ rootEvs = [Ev.mkdirEv od]) ∧
      created.Sublist (firstRefDirs (files.map fun f => parentDir f.outPath) []) ∧
      (od :: created).Nodup ∧
      (∀ e ∈ buildEvs, (∃ p, e = Ev.readEv p) ∨ ∃ p c, e = Ev.writeEv p c) ∧
      (∀ p stX, dirExists stX (parentDir p) = false → dirExists stX p = false →
        ∀ e, mkdirFS p stX ≠ .ok e ∨ parentDir p = []) :=
  c5_amended_dirs_once_ordered exC5W exProjOptions exC5St exC5Final rfl rfl rfl

/-! ### Duplicate pairs in project mode -/

theorem relativeSegs_append (a x : FPath) : relativeSegs a (a ++ x) = x := by
  unfold relativeSegs
  rw [if_pos (List.isPrefixOf_iff_prefix.mpr (List.prefix_append a x))]
  exact List.drop_left a x

/-- The `files` branch on an array value runs the loop. -/
theorem filesBranch_arr (ap od : FPath) (oe : String) (elems : List Json) (st : St) :
    filesBranch ap od oe (.val (.arr elems)) st = filesLoop ap od oe elems [] [] st := by
  unfold filesBranch
  simp [truthyJs]

/-- The `include` branch on an array value runs the loop. -/
theorem includeBranch_arr (w : World) (ap od : FPath) (oe : String) (pats : List Json)
    (acc : List FileInfo) (outDirs : List FPath) (st : St) :
    includeBranch w ap od oe (.val (.arr pats)) acc outDirs st =
      includeLoop w ap od oe pats acc outDirs st := by
  unfold includeBranch
  simp [truthyJs]

/-- A file entry that passes the filters contributes one more copy of its
pair to the accumulator of the `files` loop. -/
theorem filesLoop_count (ap od : FPath) (oe : String) (file : String)
    (hd : endsWithS file ".d.ts" = false)
    (hts : (endsWithS file ".ts" || endsWithS file ".js") = true) :
    ∀ (elems : List Json) (acc : List FileInfo) (outDirs : List FPath) (st : St)
      (acc' : List FileInfo) (outDirs' : List FPath) (st' : St),
      filesLoop ap od oe elems acc outDirs st = .ok (acc', outDirs', st') →
      (Json.str file) ∈ elems →
      acc.count (FileInfo.mk (ap ++ splitPath file)
        (replaceLastSegExt (od ++ splitPath file) oe)) + 1 ≤
        acc'.count (FileInfo.mk (ap ++ splitPath file)
          (replaceLastSegExt (od ++ splitPath file) oe)) := by
  intro elems
  induction elems with
  | nil =>
    intro acc outDirs st acc' outDirs' st' h hmem
    cases hmem
  | cons e rest ih =>
    intro acc outDirs st acc' outDirs' st' h hmem
    cases e with
    | str f0 =>
      rw [filesLoop] at h
      by_cases h1 : endsWithS f0 ".d.ts" = true
      · rw [if_pos h1] at h
        rcases List.mem_cons.mp hmem with heq | hmem
        · cases heq
          rw [hd] at h1
          cases h1
        · exact ih acc outDirs st acc' outDirs' st' h hmem
      · rw [if_neg h1] at h
        by_cases h2 : (!endsWithS f0 ".ts" && !endsWithS f0 ".js") = true
        · rw [if_pos h2] at h
          rcases List.mem_cons.mp hmem with heq | hmem
          · cases heq
            simp only [Bool.and_eq_true, Bool.not_eq_true'] at h2
            rw [h2.1, h2.2] at hts
            cases hts
          · exact ih acc outDirs st acc' outDirs' st' h hmem
        · rw [if_neg h2] at h
          rcases List.mem_cons.mp hmem with heq | hmem
          · cases heq
            obtain ⟨newPairs, ha, _, _⟩ := filesLoop_spec ap od oe rest _ _ _ _ _ _ h
            rw [ha]
            simp [List.count_append, List.count_cons]
          · have := ih _ _ _ acc' outDirs' st' h hmem
            refine le_trans ?_ this
            simp [List.count_append]
    | null => simp [filesLoop] at h
    | bool b => simp [filesLoop] at h
    | num n => simp [filesLoop] at h
    | arr elems2 => simp [filesLoop] at h
    | obj fields => simp [filesLoop] at h

/-- A glob match that passes the filters contributes one more copy of its
pair to the accumulator of the glob loop. -/
theorem globLoop_count (ap od : FPath) (oe : String) (fp : FPath)
    (hpd : endsWithPath fp ".d.ts" = false)
    (hpts : (endsWithPath fp ".ts" || endsWithPath fp ".js") = true) :
    ∀ (gmatches : List FPath) (acc : List FileInfo) (outDirs : List FPath) (st : St)
      (acc' : List FileInfo) (outDirs' : List FPath) (st' : St),
      globLoop ap od oe gmatches acc outDirs st = .ok (acc', outDirs', st') →
      fp ∈ gmatches →
      acc.count (FileInfo.mk fp (replaceLastSegExt (od ++ relativeSegs ap fp) oe)) + 1 ≤
        acc'.count (FileInfo.mk fp (replaceLastSegExt (od ++ relativeSegs ap fp) oe)) := by
  intro gmatches
  induction gmatches with
  | nil =>
    intro acc outDirs st acc' outDirs' st' h hmem
    cases hmem
  | cons f0 rest ih =>
    intro acc outDirs st acc' outDirs' st' h hmem
    rw [globLoop] at h
    by_cases h1 : (!endsWithPath f0 ".ts" && !endsWithPath f0 ".js") = true
    · rw [if_pos h1] at h
      rcases List.mem_cons.mp hmem with heq | hmem
      · cases heq
        simp only [Bool.and_eq_true, Bool.not_eq_true'] at h1
        rw [h1.1, h1.2] at hpts
        cases hpts
      · exact ih acc outDirs st acc' outDirs' st' h hmem
    · rw [if_neg h1] at h
      by_cases h2 : endsWithPath f0 ".d.ts" = true
      · rw [if_pos h2] at h
        rcases List.mem_cons.mp hmem with heq | hmem
        · cases heq
          rw [hpd] at h2
          cases h2
        · exact ih acc outDirs st acc' outDirs' st' h hmem
      · rw [if_neg h2] at h
        rcases List.mem_cons.mp hmem with heq | hmem
        · cases heq
          obtain ⟨newPairs, ha, _, _⟩ := globLoop_spec ap od oe rest _ _ _ _ _ _ h
          rw [ha]
          simp [List.count_append, List.count_cons]
        · have := ih _ _ _ acc' outDirs' st' h hmem
          refine le_trans ?_ this
          simp [List.count_append]

/-- A pattern whose glob expansion contains a passing match contributes one
more copy of its pair to the accumulator of the `include` loop. -/
theorem includeLoop_count (w : World) (ap od : FPath) (oe : String) (pat : String)
    (fp : FPath)
    (hglob : fp ∈ w.glob (ap ++ splitPath pat))
    (hpd : endsWithPath fp ".d.ts" = false)
    (hpts : (endsWithPath fp ".ts" || endsWithPath fp ".js") = true) :
    ∀ (pats : List Json) (acc : List FileInfo) (outDirs : List FPath) (st : St)
      (acc' : List FileInfo) (outDirs' : List FPath) (st' : St),
      includeLoop w ap od oe pats acc outDirs st = .ok (acc', outDirs', st') →
      (Json.str pat) ∈ pats →
      acc.count (FileInfo.mk fp (replaceLastSegExt (od ++ relativeSegs ap fp) oe)) + 1 ≤
        acc'.count (FileInfo.mk fp (replaceLastSegExt (od ++ relativeSegs ap fp) oe)) := by
  intro pats
  induction pats with
  | nil =>
    intro acc outDirs st acc' outDirs' st' h hmem
    cases hmem
  | cons p rest ih =>
    intro acc outDirs st acc' outDirs' st' h hmem
    cases p with
    | str p0 =>
      rw [includeLoop] at h
      cases hg : globLoop ap od oe (w.glob (ap ++ splitPath p0)) acc outDirs st with
      | error e =>
        rw [hg] at h
        cases h
      | ok r =>
        obtain ⟨acc1, outDirs1, st1⟩ := r
        rw [hg] at h
        rcases List.mem_cons.mp hmem with heq | hmem
        · cases heq
          have hstep := globLoop_count ap od oe fp hpd hpts _ _ _ _ _ _ _ hg hglob
          obtain ⟨new2, ha2, _, _⟩ := includeLoop_spec w ap od oe rest _ _ _ _ _ _ h
          rw [ha2]
          refine le_trans hstep ?_
          simp [List.count_append]
        · have hmono : acc.count (FileInfo.mk fp
              (replaceLastSegExt (od ++ relativeSegs ap fp) oe)) ≤
              acc1.count (FileInfo.mk fp
                (replaceLastSegExt (od ++ relativeSegs ap fp) oe)) := by
            obtain ⟨new1, ha1, _, _⟩ := globLoop_spec ap od oe _ _ _ _ _ _ _ hg
            rw [ha1]
            simp [List.count_append]
          have := ih _ _ _ acc' outDirs' st' h hmem
          omega
    | null => simp [includeLoop] at h
    | bool b => simp [includeLoop] at h
    | num n => simp [includeLoop] at h
    | arr elems2 => simp [includeLoop] at h
    | obj fields => simp [includeLoop] at h

/-- Counting through a map: each occurrence of `a` contributes `g a` to the
sum of `g` over the list. -/
theorem count_mul_le_sum_map (l : List FileInfo) (a : FileInfo) (g : FileInfo → Nat) :
    l.count a * g a ≤ (l.map g).sum := by
  induction l with
  | nil => simp
  | cons b rest ih =>
    rw [List.map_cons, List.sum_cons, List.count_cons]
    by_cases hba : (b == a) = true
    · have hba2 : b = a := by simpa using hba
      subst hba2
      rw [if_pos hba, Nat.succ_mul, Nat.add_comm (List.count b rest * g b) (g b)]
      exact Nat.add_le_add (Nat.le_refl _) ih
    · rw [if_neg hba]
      exact le_trans ih (Nat.le_add_left _ _)

/-- The pair produced for a manifest `files` entry. -/
def mkFilesPair (ap od : FPath) (oe : String) (file : String) : FileInfo :=
  FileInfo.mk (ap ++ splitPath file) (replaceLastSegExt (od ++ splitPath file) oe)

/-- **C6**: in project mode, a source file reachable both through the
manifest `files` list and through an `include` pattern yields two distinct
FilePair entries with the same source and output path (no deduplication),
and a successful build loop writes that output path at least twice — the
later write overwriting the earlier at the same location. -/
theorem c6_duplicate_built_twice (w : World) (options : CLIOptions) (st : St)
    (proj od : FPath) (str : String) (kvs : List (String × Json))
    (fels pels : List Json) (file pat : String)
    (files : List FileInfo) (st1 : St)
    (hp : options.project = some proj)
    (ho : options.outDirPath = some od)
    (hr : w.readF (proj ++ ["tsconfig.json"]) = .ok str)
    (hj : w.parseJson str = .ok (.obj kvs))
    (hfl : kvs.lookup "files" = some (.arr fels))
    (hin : kvs.lookup "include" = some (.arr pels))
    (hmemf : Json.str file ∈ fels)
    (hd : endsWithS file ".d.ts" = false)
    (hts : (endsWithS file ".ts" || endsWithS file ".js") = true)
    (hmemp : Json.str pat ∈ pels)
    (hglob : (w.cwd ++ proj ++ splitPath file) ∈ w.glob (w.cwd ++ proj ++ splitPath pat))
    (hpd : endsWithPath (w.cwd ++ proj ++ splitPath file) ".d.ts" = false)
    (hpts : (endsWithPath (w.cwd ++ proj ++ splitPath file) ".ts" ||
      endsWithPath (w.cwd ++ proj ++ splitPath file) ".js") = true)
    (hok : runGlob w options st = .ok (files, st1)) :
    2 ≤ files.count (mkFilesPair (w.cwd ++ proj) od options.outExtension file) ∧
    ∀ st2, buildFiles w options.sucraseOptions files st1 = .ok st2 →
      2 ≤ st2.events.countP
        (isWriteTo (mkFilesPair (w.cwd ++ proj) od options.outExtension file).outPath) := by
  unfold mkFilesPair
  have hf1 : readProp (.val (.obj kvs)) "files" = .ok (.val (.arr fels)) := by
    rw [readProp_obj]
    unfold propOf
    rw [hfl]
  have hf2 : readProp (.val (.obj kvs)) "include" = .ok (.val (.arr pels)) := by
    rw [readProp_obj]
    unfold propOf
    rw [hin]
  unfold runGlob at hok
  simp only [hp, hr, hj, hf1, hf2, ho] at hok
  cases hens : ensureDirE od st with
  | error e => simp only [hens] at hok; cases hok
  | ok stA =>
  simp only [hens, filesBranch_arr, includeBranch_arr] at hok
  cases hfb : filesLoop (w.cwd ++ proj) od options.outExtension fels [] [] stA with
  | error e => simp only [hfb] at hok; cases hok
  | ok r1 =>
  obtain ⟨found1, outDirs1, stB⟩ := r1
  simp only [hfb] at hok
  cases hib : includeLoop w (w.cwd ++ proj) od options.outExtension pels
      found1 outDirs1 stB with
  | error e => simp only [hib] at hok; cases hok
  | ok r2 =>
  obtain ⟨found2, outDirs2, stC⟩ := r2
  simp only [hib] at hok
  cases hmk : mkdirLoop outDirs2 stC with
  | error e => simp only [hmk] at hok; cases hok
  | ok stD =>
  simp only [hmk] at hok
  cases hok
  have hc1 : 1 ≤ found1.count (FileInfo.mk (w.cwd ++ proj ++ splitPath file)
      (replaceLastSegExt (od ++ splitPath file) options.outExtension)) := by
    have := filesLoop_count (w.cwd ++ proj) od options.outExtension file hd hts fels
      [] [] stA found1 outDirs1 stB hfb hmemf
    simpa using this
  have hrel : relativeSegs (w.cwd ++ proj) (w.cwd ++ proj ++ splitPath file) =
      splitPath file := relativeSegs_append _ _
  have hc2 : 2 ≤ files.count (FileInfo.mk (w.cwd ++ proj ++ splitPath file)
      (replaceLastSegExt (od ++ splitPath file) options.outExtension)) := by
    have hstep := includeLoop_count w (w.cwd ++ proj) od options.outExtension pat
      (w.cwd ++ proj ++ splitPath file) hglob hpd hpts pels found1 outDirs1 stB
      files outDirs2 stC hib hmemp
    rw [hrel] at hstep
    omega
  refine ⟨hc2, ?_⟩
  intro st2 hbuild
  obtain ⟨hall, hst2⟩ := buildFiles_ok_spec w options.sucraseOptions files st1 st2 hbuild
  have hmemP : (FileInfo.mk (w.cwd ++ proj ++ splitPath file)
      (replaceLastSegExt (od ++ splitPath file) options.outExtension)) ∈ files :=
    List.count_pos_iff.mp (by omega)
  obtain ⟨out, hout⟩ := hall _ hmemP
  have hone : (fileEvents w options.sucraseOptions
      (FileInfo.mk (w.cwd ++ proj ++ splitPath file)
        (replaceLastSegExt (od ++ splitPath file) options.outExtension))).countP
      (isWriteTo (replaceLastSegExt (od ++ splitPath file) options.outExtension)) = 1 := by
    rw [fileEvents_ok _ _ _ _ hout]
    simp [List.countP_cons, isWriteTo]
  have hmul := count_mul_le_sum_map files
    (FileInfo.mk (w.cwd ++ proj ++ splitPath file)
      (replaceLastSegExt (od ++ splitPath file) options.outExtension))
    (fun f => (fileEvents w options.sucraseOptions f).countP
      (isWriteTo (replaceLastSegExt (od ++ splitPath file) options.outExtension)))
  simp only [hone, Nat.mul_one] at hmul
  rw [hst2]
  simp only [List.countP_append]
  have hflat : ((files.map (fileEvents w options.sucraseOptions)).flatten).countP
      (isWriteTo (replaceLastSegExt (od ++ splitPath file) options.outExtension)) =
      (files.map (fun f => (fileEvents w options.sucraseOptions f).countP
        (isWriteTo (replaceLastSegExt (od ++ splitPath file) options.outExtension)))).sum := by
    rw [List.countP_flatten, List.map_map]
    rfl
  rw [hflat]
  omega

/-- Concrete world for the duplicate-pair scenario: `x.ts` is listed in
`files` and matched by the `*.ts` include pattern. -/
def exC6W : World :=
  { cwd := []
    srcTree := []
    readF := fun p =>
      if p = ["p", "tsconfig.json"] then .ok "cfg"
      else if p = ["p", "x.ts"] then .ok "let x = 1" else .error "ENOENT"
    parseJson := fun s =>
      if s = "cfg" then
        .ok (.obj [("files", .arr [.str "x.ts"]), ("include", .arr [.str "*.ts"])])
      else .error "SyntaxError"
    glob := fun p => if p = ["p", "*.ts"] then [["p", "x.ts"]] else []
    transformF := fun _ _ _ => .ok "transformed"
    writeOk := fun _ => true }

/-- Project-mode options with the output directory already resolved. -/
def exC6Options : CLIOptions :=
  { exProjOptions with outDirPath := some ["p", "out"] }

theorem c6_duplicate_built_twice_witness :
    ∃ files st1,
      runGlob exC6W exC6Options { dirs := [["p"], ["p", "out"]], events := [] } =
        .ok (files, st1) ∧
      2 ≤ files.count (mkFilesPair (exC6W.cwd ++ ["p"]) ["p", "out"]
        exC6Options.outExtension "x.ts") ∧
      (∀ st2, buildFiles exC6W exC6Options.sucraseOptions files st1 = .ok st2 →
        2 ≤ st2.events.countP
          (isWriteTo (mkFilesPair (exC6W.cwd ++ ["p"]) ["p", "out"]
            exC6Options.outExtension "x.ts").outPath)) :=
  ⟨_, _, rfl,
    (c6_duplicate_built_twice exC6W exC6Options
      { dirs := [["p"], ["p", "out"]], events := [] } ["p"] ["p", "out"] "cfg"
      [("files", .arr [.str "x.ts"]), ("include", .arr [.str "*.ts"])]
      [.str "x.ts"] [.str "*.ts"] "x.ts" "*.ts" _ _
      rfl rfl rfl rfl rfl rfl (List.mem_singleton.mpr rfl) (by decide) (by decide)
      (List.mem_singleton.mpr rfl) (by decide) (by decide) (by decide) rfl).1,
    (c6_duplicate_built_twice exC6W exC6Options
      { dirs := [["p"], ["p", "out"]], events := [] } ["p"] ["p", "out"] "cfg"
      [("files", .arr [.str "x.ts"]), ("include", .arr [.str "*.ts"])]
      [.str "x.ts"] [.str "*.ts"] "x.ts" "*.ts" _ _
      rfl rfl rfl rfl rfl rfl (List.mem_singleton.mpr rfl) (by decide) (by decide)
      (List.mem_singleton.mpr rfl) (by decide) (by decide) (by decide) rfl).2⟩

end SucraseCLI
